import Mathlib

/-!
# Verification of the quadtree image codec

Shallow embedding of the quadtree compression codec (`src/core/quadtree.c`,
`src/codec/compression.c`, `src/codec/decompression.c`, `src/common/common.c`)
and proofs about it.

Modelling conventions:
* machine integers (`uint8_t`, `uint32_t`, ...) are `Nat` with explicit
  `% 2^w` at the places where the C code performs a narrowing cast;
  sums of four `uint8_t` values are computed in `uint32_t` in the source
  and cannot overflow, so they are plain `Nat` additions here;
* the `quadrant_order` array in `common/common.h` is the identity
  permutation `[0,1,2,3]` (TL, TR, BR, BL), so loops `for i in 0..3` over
  `quadrant_order[i]` are unrolled in that order;
* logging, progress reporting and `FILE*` plumbing are side effects the
  core does not depend on and are dropped; `malloc` is assumed to succeed
  (the out-of-memory paths are not modelled);
* the bit-level writer and reader are modelled faithfully at the level of
  their state machines (byte buffer, bit position, emitted/remaining bytes);
* the floating-point variance arithmetic of the lossy filter is modelled
  in exact rational arithmetic; since every comparison `v <= t` in the
  filter compares two non-negative quantities, the model tracks the
  *squares* `v^2` and `t^2` (avoiding `sqrtf`), which preserves every
  branch outcome of the exact-real idealization.  The C expression
  `median/max` when no positive variance exists is `0.0f/0.0f = NaN`,
  and every comparison with NaN is false; the model represents a NaN
  threshold as `Option.none`.
-/

set_option maxHeartbeats 2000000

namespace QtreeCompress

/-- One node of the quadtree (`qtree_node_t` in `include/core/quadtree.h`):
8-bit mean `m`, 2-bit residual `e`, uniformity flag `u`, and four optional
children in quadrant slots TL, TR, BR, BL (a null pointer is `none`).
The float variance field `v` is not stored: the build and codec never read
it, and the lossy filter model recomputes variances functionally (`vsq`). -/
inductive QNode where
  | mk (m : Nat) (e : Nat) (u : Bool) (c0 c1 c2 c3 : Option QNode)

namespace QNode

def m : QNode → Nat
  | .mk m _ _ _ _ _ _ => m

def e : QNode → Nat
  | .mk _ e _ _ _ _ _ => e

def u : QNode → Bool
  | .mk _ _ u _ _ _ _ => u

def c0 : QNode → Option QNode
  | .mk _ _ _ c0 _ _ _ => c0

def c1 : QNode → Option QNode
  | .mk _ _ _ _ c1 _ _ => c1

def c2 : QNode → Option QNode
  | .mk _ _ _ _ _ c2 _ => c2

def c3 : QNode → Option QNode
  | .mk _ _ _ _ _ _ c3 => c3

@[simp] theorem m_mk (m e u c0 c1 c2 c3) : (QNode.mk m e u c0 c1 c2 c3).m = m := rfl
@[simp] theorem e_mk (m e u c0 c1 c2 c3) : (QNode.mk m e u c0 c1 c2 c3).e = e := rfl
@[simp] theorem u_mk (m e u c0 c1 c2 c3) : (QNode.mk m e u c0 c1 c2 c3).u = u := rfl
@[simp] theorem c0_mk (m e u c0 c1 c2 c3) : (QNode.mk m e u c0 c1 c2 c3).c0 = c0 := rfl
@[simp] theorem c1_mk (m e u c0 c1 c2 c3) : (QNode.mk m e u c0 c1 c2 c3).c1 = c1 := rfl
@[simp] theorem c2_mk (m e u c0 c1 c2 c3) : (QNode.mk m e u c0 c1 c2 c3).c2 = c2 := rfl
@[simp] theorem c3_mk (m e u c0 c1 c2 c3) : (QNode.mk m e u c0 c1 c2 c3).c3 = c3 := rfl

end QNode

/-- Node count of a subtree, used as induction measure for proofs about the
recursive tree walks. -/
def qsize : QNode → Nat
  | .mk _ _ _ c0 c1 c2 c3 =>
    1 + (match c0 with | none => 0 | some k => qsize k)
      + (match c1 with | none => 0 | some k => qsize k)
      + (match c2 with | none => 0 | some k => qsize k)
      + (match c3 with | none => 0 | some k => qsize k)
termination_by structural n => n

/-- Size of a possibly-null subtree. -/
def osize : Option QNode → Nat
  | none => 0
  | some n => qsize n

theorem qsize_mk (m e : Nat) (u : Bool) (c0 c1 c2 c3 : Option QNode) :
    qsize (.mk m e u c0 c1 c2 c3) = 1 + osize c0 + osize c1 + osize c2 + osize c3 := by
  cases c0 <;> cases c1 <;> cases c2 <;> cases c3 <;> rfl

theorem qsize_pos (n : QNode) : 0 < qsize n := by
  obtain ⟨m, e, u, c0, c1, c2, c3⟩ := n
  rw [qsize_mk]
  omega

theorem osize_c0_lt (m e : Nat) (u : Bool) (c0 c1 c2 c3 : Option QNode) :
    osize c0 < osize (some (.mk m e u c0 c1 c2 c3)) := by
  show osize c0 < qsize (.mk m e u c0 c1 c2 c3)
  rw [qsize_mk]; omega

theorem osize_c1_lt (m e : Nat) (u : Bool) (c0 c1 c2 c3 : Option QNode) :
    osize c1 < osize (some (.mk m e u c0 c1 c2 c3)) := by
  show osize c1 < qsize (.mk m e u c0 c1 c2 c3)
  rw [qsize_mk]; omega

theorem osize_c2_lt (m e : Nat) (u : Bool) (c0 c1 c2 c3 : Option QNode) :
    osize c2 < osize (some (.mk m e u c0 c1 c2 c3)) := by
  show osize c2 < qsize (.mk m e u c0 c1 c2 c3)
  rw [qsize_mk]; omega

theorem osize_c3_lt (m e : Nat) (u : Bool) (c0 c1 c2 c3 : Option QNode) :
    osize c3 < osize (some (.mk m e u c0 c1 c2 c3)) := by
  show osize c3 < qsize (.mk m e u c0 c1 c2 c3)
  rw [qsize_mk]; omega

/-- Strong induction over the node count. -/
theorem qnode_strong_ind {motive : QNode → Prop}
    (h : ∀ n, (∀ k, qsize k < qsize n → motive k) → motive n) : ∀ n, motive n := by
  have key : ∀ N n, qsize n ≤ N → motive n := by
    intro N
    induction N with
    | zero =>
      intro n hn
      have := qsize_pos n
      omega
    | succ N ih =>
      intro n hn
      exact h n (fun k hk => ih k (by omega))
  exact fun n => key (qsize n) n (le_refl _)

/-- Strong induction over the size of a possibly-null subtree. -/
theorem qopt_strong_ind {motive : Option QNode → Prop}
    (h : ∀ o, (∀ p, osize p < osize o → motive p) → motive o) : ∀ o, motive o := by
  have key : ∀ N o, osize o ≤ N → motive o := by
    intro N
    induction N with
    | zero => exact fun o ho => h o (fun p hp => by omega)
    | succ N ih => exact fun o ho => h o (fun p hp => ih p (by omega))
  exact fun o => key (osize o) o (le_refl _)

/-- Boolean equality of nodes (auxiliary; nested inductives get no derived
`DecidableEq`). -/
def qbeq : QNode → QNode → Bool
  | .mk m e u c0 c1 c2 c3, .mk m' e' u' c0' c1' c2' c3' =>
    m == m' && e == e' && u == u' &&
    (match c0 with
     | none => c0'.isNone
     | some a => match c0' with | none => false | some b => qbeq a b) &&
    (match c1 with
     | none => c1'.isNone
     | some a => match c1' with | none => false | some b => qbeq a b) &&
    (match c2 with
     | none => c2'.isNone
     | some a => match c2' with | none => false | some b => qbeq a b) &&
    (match c3 with
     | none => c3'.isNone
     | some a => match c3' with | none => false | some b => qbeq a b)
termination_by structural n => n

/-- Boolean equality on child slots, in terms of `qbeq`. -/
def obeq : Option QNode → Option QNode → Bool
  | none, none => true
  | some x, some y => qbeq x y
  | _, _ => false

theorem qbeq_mk (m e : Nat) (u : Bool) (c0 c1 c2 c3 : Option QNode)
    (m' e' : Nat) (u' : Bool) (c0' c1' c2' c3' : Option QNode) :
    qbeq (.mk m e u c0 c1 c2 c3) (.mk m' e' u' c0' c1' c2' c3') =
      (m == m' && e == e' && u == u' &&
        obeq c0 c0' && obeq c1 c1' && obeq c2 c2' && obeq c3 c3') := by
  cases c0 <;> cases c1 <;> cases c2 <;> cases c3 <;>
    cases c0' <;> cases c1' <;> cases c2' <;> cases c3' <;> rfl

theorem qbeq_iff : ∀ a b : QNode, qbeq a b = true ↔ a = b := by
  have obeq_of : ∀ (c c' : Option QNode),
      (∀ x, c = some x → ∀ b, qbeq x b = true ↔ x = b) →
      (obeq c c' = true ↔ c = c') := by
    intro c c' hih
    cases c with
    | none => cases c' <;> simp [obeq]
    | some x =>
      cases c' with
      | none => simp [obeq]
      | some y => simpa [obeq] using hih x rfl y
  refine qnode_strong_ind ?_
  intro a iha'
  have iha : ∀ k, osize (some k) < osize (some a) → ∀ b, qbeq k b = true ↔ k = b :=
    fun k hk => iha' k hk
  clear iha'
  intro b
  obtain ⟨m, e, u, c0, c1, c2, c3⟩ := a
  obtain ⟨m', e', u', c0', c1', c2', c3'⟩ := b
  rw [qbeq_mk]
  simp only [Bool.and_eq_true, beq_iff_eq, QNode.mk.injEq]
  have h0 := obeq_of c0 c0' (fun x hx => by
    subst hx
    exact iha x (osize_c0_lt m e u (some x) c1 c2 c3))
  have h1 := obeq_of c1 c1' (fun x hx => by
    subst hx
    exact iha x (osize_c1_lt m e u c0 (some x) c2 c3))
  have h2 := obeq_of c2 c2' (fun x hx => by
    subst hx
    exact iha x (osize_c2_lt m e u c0 c1 (some x) c3))
  have h3 := obeq_of c3 c3' (fun x hx => by
    subst hx
    exact iha x (osize_c3_lt m e u c0 c1 c2 (some x)))
  rw [h0, h1, h2, h3]
  tauto

instance : DecidableEq QNode := fun a b => decidable_of_iff _ (qbeq_iff a b)

/-- `qtree_is_leaf` (`core/quadtree.c`): null is not a leaf; otherwise a node
is a leaf iff all four child slots are empty. -/
def qtree_is_leaf : Option QNode → Bool
  | none => false
  | some (.mk _ _ _ c0 c1 c2 c3) => c0.isNone && c1.isNone && c2.isNone && c3.isNone

/-- The whole tree (`qtree_t`): root node, level count, side length. -/
structure QTree where
  root : QNode
  n_levels : Nat
  size : Nat

/-- The status codes of `qtree_status_t`. -/
inductive QtreeStatus where
  | success
  | error_memory
  | error_invalid_param
  | error_format
deriving DecidableEq, Repr

/-! ## Builder (`core/quadtree.c`) -/

/-- `calculate_node_properties`: mean, residual and uniformity from the four
child nodes.  The sum is computed in `uint32_t` (no overflow for four bytes);
the mean is narrowed by the `(uint8_t)` cast, hence `% 256`; the residual is
masked with `& 0x3`. Returns `(m, e, is_uniform)`. -/
def calculate_node_properties (k0 k1 k2 k3 : QNode) : Nat × Nat × Bool :=
  let sum := k0.m + k1.m + k2.m + k3.m
  let mean := (sum / 4) % 256
  let error_val := (sum % 4) % 256
  let all_uniform := k0.u && k1.u && k2.u && k3.u
  let all_same := (k0.m == k1.m) && (k1.m == k2.m) && (k2.m == k3.m)
  let is_uniform := (error_val == 0) && all_uniform && all_same
  (mean, error_val % 4, is_uniform)

/-- `build_recursive` minus progress tracking: at level 0 the leaf for the
current cell (`create_leaf_node` reads `pixels[row*size+col]`, `e = 0`,
`u = 1`); otherwise build the four children in quadrant order with
`step = 1 << (level-1)` and offsets TL `(r,c)`, TR `(r,c+step)`,
BR `(r+step,c+step)`, BL `(r+step,c)`, then compute the node properties
and drop the children when the node is uniform. -/
def build_recursive (pixels : Nat → Nat) (size : Nat) : Nat → Nat → Nat → QNode
  | 0, row, col => .mk (pixels (row * size + col)) 0 true none none none none
  | level + 1, row, col =>
    let step := 2 ^ level
    let k0 := build_recursive pixels size level row col
    let k1 := build_recursive pixels size level row (col + step)
    let k2 := build_recursive pixels size level (row + step) (col + step)
    let k3 := build_recursive pixels size level (row + step) col
    let p := calculate_node_properties k0 k1 k2 k3
    if p.2.2 then .mk p.1 p.2.1 true none none none none
    else .mk p.1 p.2.1 false (some k0) (some k1) (some k2) (some k3)

/-- `qtree_init` + `qtree_build`: `n_levels = floor(log2 size)` and the root
is built from the full image. -/
def qtree_build (pixels : Nat → Nat) (size : Nat) : QTree :=
  { root := build_recursive pixels size (Nat.log2 size) 0 0
    n_levels := Nat.log2 size
    size := size }

/-- `calculate_total_nodes`: `total = Σ_{i=0..levels} 4^i` computed by the
source's accumulation loop. -/
def calculate_total_nodes (levels : Nat) : Nat :=
  ((List.range (levels + 1)).foldl (fun tn _ => (tn.1 + tn.2, tn.2 * 4)) ((0 : Nat), (1 : Nat))).1

/-- All nodes of a (sub)tree in preorder, the node itself first
(recursive worker on a non-null node; a null pointer contributes nothing). -/
def nodesOfN : QNode → List QNode
  | .mk m e u c0 c1 c2 c3 =>
    .mk m e u c0 c1 c2 c3 ::
      ((match c0 with | none => [] | some k => nodesOfN k) ++
       (match c1 with | none => [] | some k => nodesOfN k) ++
       (match c2 with | none => [] | some k => nodesOfN k) ++
       (match c3 with | none => [] | some k => nodesOfN k))
termination_by structural n => n

/-- All nodes of a possibly-null (sub)tree in preorder. -/
def nodesOf : Option QNode → List QNode
  | none => []
  | some n => nodesOfN n

@[simp] theorem nodesOf_none : nodesOf none = [] := rfl

theorem nodesOf_some (m e : Nat) (u : Bool) (c0 c1 c2 c3 : Option QNode) :
    nodesOf (some (.mk m e u c0 c1 c2 c3)) =
      .mk m e u c0 c1 c2 c3 :: (nodesOf c0 ++ nodesOf c1 ++ nodesOf c2 ++ nodesOf c3) := by
  cases c0 <;> cases c1 <;> cases c2 <;> cases c3 <;> rfl

/-! ## Renderer (`codec/decompression.c`, `extract_pixels`) -/

/-- The pixel buffer (`uint8_t *pixels`), indexed by `i * total_size + j`. -/
def Buf : Type := Nat → Nat

/-- A single array store `pixels[idx] = v`. -/
def writePix (b : Buf) (idx v : Nat) : Buf := fun k => if k = idx then v else b k

/-- The index list of the clamped loop
`for (x = lo; x < lo + len && x < total; x++)`. -/
def clampRange (lo len total : Nat) : List Nat :=
  List.range' lo (min (lo + len) total - lo)

/-- The uniform-fill double loop of `extract_pixels`: every `(i,j)` with
`row ≤ i < row+size`, `i < total`, `col ≤ j < col+size`, `j < total` gets
value `v` at index `i * total + j`. -/
def fill_block (b : Buf) (v row col size total : Nat) : Buf :=
  (clampRange row size total).foldl
    (fun acc i =>
      (clampRange col size total).foldl (fun a j => writePix a (i * total + j) v) acc)
    b

/-- `extract_pixels` on a non-null node: uniform nodes (or 1×1 regions) fill
their block with `m`; otherwise recurse into the four quadrants of side
`size/2` in quadrant order TL, TR, BR, BL (a null child is a no-op, matching
the `if (!node) return` guard). -/
def extract_pixelsN : QNode → Buf → Nat → Nat → Nat → Nat → Buf
  | .mk m _ u c0 c1 c2 c3, b, row, col, size, total =>
    if u || size == 1 then fill_block b m row col size total
    else
      let half := size / 2
      let b0 := match c0 with
        | none => b
        | some k => extract_pixelsN k b row col half total
      let b1 := match c1 with
        | none => b0
        | some k => extract_pixelsN k b0 row (col + half) half total
      let b2 := match c2 with
        | none => b1
        | some k => extract_pixelsN k b1 (row + half) (col + half) half total
      match c3 with
        | none => b2
        | some k => extract_pixelsN k b2 (row + half) col half total
termination_by structural n => n

/-- `extract_pixels`: a null node leaves the buffer unchanged. -/
def extract_pixels : Option QNode → Buf → Nat → Nat → Nat → Nat → Buf
  | none, b, _, _, _, _ => b
  | some n, b, row, col, size, total => extract_pixelsN n b row col size total

theorem extract_pixels_some (m e : Nat) (u : Bool) (c0 c1 c2 c3 : Option QNode)
    (b : Buf) (row col size total : Nat) :
    extract_pixels (some (.mk m e u c0 c1 c2 c3)) b row col size total =
      if u || size == 1 then fill_block b m row col size total
      else
        extract_pixels c3
          (extract_pixels c2
            (extract_pixels c1
              (extract_pixels c0 b row col (size / 2) total)
              row (col + size / 2) (size / 2) total)
            (row + size / 2) (col + size / 2) (size / 2) total)
          (row + size / 2) col (size / 2) total := by
  cases c0 <;> cases c1 <;> cases c2 <;> cases c3 <;> rfl

/-- The write trace of `extract_pixels` on a non-null node: the
`(i, j, value)` triples stored, in execution order. -/
def extract_writesN : QNode → Nat → Nat → Nat → Nat → List (Nat × Nat × Nat)
  | .mk m _ u c0 c1 c2 c3, row, col, size, total =>
    if u || size == 1 then
      (clampRange row size total).flatMap
        (fun i => (clampRange col size total).map (fun j => (i, j, m)))
    else
      let half := size / 2
      (match c0 with | none => [] | some k => extract_writesN k row col half total) ++
      (match c1 with | none => [] | some k => extract_writesN k row (col + half) half total) ++
      (match c2 with | none => [] | some k => extract_writesN k (row + half) (col + half) half total) ++
      (match c3 with | none => [] | some k => extract_writesN k (row + half) col half total)
termination_by structural n => n

/-- The write trace of `extract_pixels`. `extract_pixels` is exactly the left
fold of `writePix` over this list (first half of C10). -/
def extract_writes : Option QNode → Nat → Nat → Nat → Nat → List (Nat × Nat × Nat)
  | none, _, _, _, _ => []
  | some n, row, col, size, total => extract_writesN n row col size total

theorem extract_writes_some (m e : Nat) (u : Bool) (c0 c1 c2 c3 : Option QNode)
    (row col size total : Nat) :
    extract_writes (some (.mk m e u c0 c1 c2 c3)) row col size total =
      if u || size == 1 then
        (clampRange row size total).flatMap
          (fun i => (clampRange col size total).map (fun j => (i, j, m)))
      else
        extract_writes c0 row col (size / 2) total ++
        extract_writes c1 row (col + size / 2) (size / 2) total ++
        extract_writes c2 (row + size / 2) (col + size / 2) (size / 2) total ++
        extract_writes c3 (row + size / 2) col (size / 2) total := by
  cases c0 <;> cases c1 <;> cases c2 <;> cases c3 <;> rfl

/-! ## Structural invariants of built trees -/

/-- Well-formedness of a subtree with `level` remaining levels, as guaranteed
by `build_recursive`: bounded mean and residual; a uniform node is a leaf with
`e = 0`; a non-uniform node (possible only above level 0) has all four
children, each well-formed one level down, and satisfies the parent-sum
identity `m0+m1+m2+m3 = 4*m + e`. -/
def WF : Nat → QNode → Prop
  | 0, n => n.m < 256 ∧ n.e = 0 ∧ n.u = true ∧
      n.c0 = none ∧ n.c1 = none ∧ n.c2 = none ∧ n.c3 = none
  | level + 1, n =>
    n.m < 256 ∧ n.e ≤ 3 ∧
    ((n.u = true ∧ n.e = 0 ∧ n.c0 = none ∧ n.c1 = none ∧ n.c2 = none ∧ n.c3 = none) ∨
     (n.u = false ∧ ∃ k0 k1 k2 k3,
        n.c0 = some k0 ∧ n.c1 = some k1 ∧ n.c2 = some k2 ∧ n.c3 = some k3 ∧
        WF level k0 ∧ WF level k1 ∧ WF level k2 ∧ WF level k3 ∧
        k0.m + k1.m + k2.m + k3.m = 4 * n.m + n.e))

theorem WF_m_lt {level : Nat} {n : QNode} (h : WF level n) : n.m < 256 := by
  cases level <;> exact h.1

theorem WF_e_le {level : Nat} {n : QNode} (h : WF level n) : n.e ≤ 3 := by
  cases level with
  | zero => simp [h.2.1]
  | succ _ => exact h.2.1

/-- `build_recursive` produces well-formed subtrees (pixels being bytes). -/
theorem build_recursive_WF (pixels : Nat → Nat) (hpix : ∀ i, pixels i < 256)
    (size : Nat) : ∀ level row col, WF level (build_recursive pixels size level row col) := by
  intro level
  induction level with
  | zero =>
    intro row col
    simp [build_recursive, WF, hpix]
  | succ level ih =>
    intro row col
    simp only [build_recursive]
    set k0 := build_recursive pixels size level row col with hk0
    set k1 := build_recursive pixels size level row (col + 2 ^ level) with hk1
    set k2 := build_recursive pixels size level (row + 2 ^ level) (col + 2 ^ level) with hk2
    set k3 := build_recursive pixels size level (row + 2 ^ level) col with hk3
    have w0 := ih row col
    have w1 := ih row (col + 2 ^ level)
    have w2 := ih (row + 2 ^ level) (col + 2 ^ level)
    have w3 := ih (row + 2 ^ level) col
    rw [← hk0] at w0; rw [← hk1] at w1; rw [← hk2] at w2; rw [← hk3] at w3
    have hsum : k0.m + k1.m + k2.m + k3.m < 1024 := by
      have := WF_m_lt w0; have := WF_m_lt w1; have := WF_m_lt w2; have := WF_m_lt w3
      omega
    simp only [calculate_node_properties]
    set sum := k0.m + k1.m + k2.m + k3.m with hsumdef
    have hdiv : sum / 4 < 256 := by omega
    have hmean : sum / 4 % 256 = sum / 4 := Nat.mod_eq_of_lt hdiv
    have herr : sum % 4 % 256 = sum % 4 := Nat.mod_eq_of_lt (by omega)
    split
    · -- uniform: children dropped
      rename_i huni
      simp only [Bool.and_eq_true, beq_iff_eq] at huni
      have herr0 : sum % 4 % 256 = 0 := huni.1.1
      refine ⟨?_, ?_, Or.inl ⟨rfl, ?_, rfl, rfl, rfl, rfl⟩⟩
      · simp only [QNode.m_mk]
        omega
      · simp only [QNode.e_mk]
        omega
      · simp only [QNode.e_mk]
        omega
    · refine ⟨?_, ?_, Or.inr ⟨rfl, k0, k1, k2, k3, rfl, rfl, rfl, rfl, w0, w1, w2, w3, ?_⟩⟩
      · simp only [QNode.m_mk]
        omega
      · simp only [QNode.e_mk]
        omega
      · simp only [QNode.m_mk, QNode.e_mk]
        rw [hmean, herr]
        omega

/-- Every node occurring in a well-formed subtree is itself well-formed at
some (smaller or equal) level. -/
theorem nodesOf_WF : ∀ level n, WF level n → ∀ x ∈ nodesOf (some n), ∃ l, l ≤ level ∧ WF l x := by
  intro level
  induction level with
  | zero =>
    intro n hn x hx
    obtain ⟨m, e, u, c0, c1, c2, c3⟩ := n
    have h4 := hn.2.2.2
    simp only [QNode.c0_mk, QNode.c1_mk, QNode.c2_mk, QNode.c3_mk] at h4
    obtain ⟨rfl, rfl, rfl, rfl⟩ := h4
    rw [nodesOf_some] at hx
    simp only [nodesOf_none, List.append_nil, List.nil_append, List.mem_singleton] at hx
    subst hx
    exact ⟨0, le_refl _, hn⟩
  | succ level ih =>
    intro n hn x hx
    obtain ⟨m, e, u, c0, c1, c2, c3⟩ := n
    rcases hn.2.2 with ⟨_, _, h0, h1, h2, h3⟩ | ⟨_, k0, k1, k2, k3, h0, h1, h2, h3, w0, w1, w2, w3, _⟩
    · simp only [QNode.c0_mk] at h0; simp only [QNode.c1_mk] at h1
      simp only [QNode.c2_mk] at h2; simp only [QNode.c3_mk] at h3
      subst h0; subst h1; subst h2; subst h3
      rw [nodesOf_some] at hx
      simp only [nodesOf_none, List.append_nil, List.nil_append, List.mem_singleton] at hx
      subst hx
      exact ⟨level + 1, le_refl _, hn⟩
    · simp only [QNode.c0_mk] at h0; simp only [QNode.c1_mk] at h1
      simp only [QNode.c2_mk] at h2; simp only [QNode.c3_mk] at h3
      subst h0; subst h1; subst h2; subst h3
      rw [nodesOf_some] at hx
      simp only [List.mem_cons, List.mem_append] at hx
      rcases hx with rfl | (((h | h) | h) | h)
      · exact ⟨level + 1, le_refl _, hn⟩
      · obtain ⟨l, hl, hw⟩ := ih k0 w0 x h; exact ⟨l, by omega, hw⟩
      · obtain ⟨l, hl, hw⟩ := ih k1 w1 x h; exact ⟨l, by omega, hw⟩
      · obtain ⟨l, hl, hw⟩ := ih k2 w2 x h; exact ⟨l, by omega, hw⟩
      · obtain ⟨l, hl, hw⟩ := ih k3 w3 x h; exact ⟨l, by omega, hw⟩

/-- `Nat.log2` is exact on powers of two, so `qtree_init` on side `2^L`
stores `n_levels = L`. -/
theorem log2_two_pow (L : Nat) : Nat.log2 (2 ^ L) = L := by
  rw [Nat.log2_eq_log_two]
  exact Nat.log_pow Nat.one_lt_two L

theorem qtree_build_pow2 (pixels : Nat → Nat) (L : Nat) :
    qtree_build pixels (2 ^ L) =
      { root := build_recursive pixels (2 ^ L) L 0 0, n_levels := L, size := 2 ^ L } := by
  simp [qtree_build, log2_two_pow]

/-! ## C2: the parent-sum identity after build -/

/-- **C2.** After `qtree_build` succeeds on a valid pixel buffer (square side
`2^L`, 8-bit pixels), every non-leaf node `N` of the resulting tree has its
four children present, with child means summing to `4*N.m + N.e`, and
`0 ≤ N.e ≤ 3`. -/
theorem C2_parent_sum_identity (L : Nat) (pixels : Nat → Nat)
    (hpix : ∀ i, pixels i < 256) :
    ∀ n ∈ nodesOf (some (qtree_build pixels (2 ^ L)).root),
      qtree_is_leaf (some n) = false →
      ∃ k0 k1 k2 k3,
        n.c0 = some k0 ∧ n.c1 = some k1 ∧ n.c2 = some k2 ∧ n.c3 = some k3 ∧
        k0.m + k1.m + k2.m + k3.m = 4 * n.m + n.e ∧ n.e ≤ 3 := by
  intro n hn hleaf
  have hwf : WF (Nat.log2 (2 ^ L)) (qtree_build pixels (2 ^ L)).root :=
    build_recursive_WF pixels hpix (2 ^ L) _ 0 0
  obtain ⟨l, _, hw⟩ := nodesOf_WF _ _ hwf n hn
  obtain ⟨m, e, u, c0, c1, c2, c3⟩ := n
  cases l with
  | zero =>
    obtain ⟨_, _, _, h0, h1, h2, h3⟩ := hw
    simp only [QNode.c0_mk] at h0; simp only [QNode.c1_mk] at h1
    simp only [QNode.c2_mk] at h2; simp only [QNode.c3_mk] at h3
    subst h0; subst h1; subst h2; subst h3
    simp [qtree_is_leaf] at hleaf
  | succ l =>
    rcases hw.2.2 with ⟨_, _, h0, h1, h2, h3⟩ | ⟨_, k0, k1, k2, k3, h0, h1, h2, h3, _, _, _, _, hsum⟩
    · simp only [QNode.c0_mk] at h0; simp only [QNode.c1_mk] at h1
      simp only [QNode.c2_mk] at h2; simp only [QNode.c3_mk] at h3
      subst h0; subst h1; subst h2; subst h3
      simp [qtree_is_leaf] at hleaf
    · exact ⟨k0, k1, k2, k3, h0, h1, h2, h3, hsum, hw.2.1⟩

/-- Witness for C2 at a concrete input: constant byte image of side 2. -/
theorem C2_parent_sum_identity_witness :
    (∀ i, (fun _ : Nat => 7) i < 256) ∧
    (∀ n ∈ nodesOf (some (qtree_build (fun _ : Nat => 7) (2 ^ 1)).root),
      qtree_is_leaf (some n) = false →
      ∃ k0 k1 k2 k3,
        n.c0 = some k0 ∧ n.c1 = some k1 ∧ n.c2 = some k2 ∧ n.c3 = some k3 ∧
        k0.m + k1.m + k2.m + k3.m = 4 * n.m + n.e ∧ n.e ≤ 3) :=
  ⟨fun _ => by norm_num, C2_parent_sum_identity 1 _ (fun _ => by norm_num)⟩

/-! ## C9: the progress divisor `total / 100` -/

/-- **C9** (code bug). For the valid input side `S = 8 = 2^3` the builder's
progress divisor `calculate_total_nodes(n_levels) / 100` is zero (the total
node count is `85 < 100`), so `progress->processed % (progress->total / 100)`
in `build_recursive` is a modulo by zero on a valid input, contrary to the
claim. -/
theorem C9_progress_divisor_zero_for_side8 :
    (8 : Nat) = 2 ^ 3 ∧
    calculate_total_nodes (Nat.log2 (2 ^ 3)) = 85 ∧
    calculate_total_nodes (Nat.log2 (2 ^ 3)) / 100 = 0 := by
  rw [log2_two_pow]
  exact ⟨by norm_num, by decide, by decide⟩

/-! ## C10: render writes stay inside the buffer -/

/-- Folding over a `flatMap` is the nested fold. -/
theorem foldl_flatMap_eq {α β γ : Type} (f : α → List β) (g : γ → β → γ)
    (l : List α) (init : γ) :
    (l.flatMap f).foldl g init = l.foldl (fun acc x => (f x).foldl g acc) init := by
  induction l generalizing init with
  | nil => rfl
  | cons a l ih => simp [List.flatMap_cons, List.foldl_append, ih]

theorem mem_clampRange {x lo len total : Nat} (h : x ∈ clampRange lo len total) :
    lo ≤ x ∧ x < lo + len ∧ x < total := by
  simp only [clampRange, List.mem_range'_1] at h
  omega

@[simp] theorem extract_pixels_none (b : Buf) (row col size total : Nat) :
    extract_pixels none b row col size total = b := rfl

@[simp] theorem extract_writes_none (row col size total : Nat) :
    extract_writes none row col size total = [] := rfl

/-- **C10.** `extract_pixels` is exactly the fold of its write trace, and
every write of the trace goes to `(i, j)` with `i < total_size` and
`j < total_size`, hence to an index `i * total_size + j` inside a buffer of
length `total_size * total_size` — for every tree (including malformed ones)
and every origin (including out-of-range ones). -/
theorem C10_extract_pixels_writes_in_bounds :
    ∀ (node : Option QNode) (row col size total : Nat),
      (∀ b, extract_pixels node b row col size total =
        (extract_writes node row col size total).foldl
          (fun acc t => writePix acc (t.1 * total + t.2.1) t.2.2) b) ∧
      (∀ t ∈ extract_writes node row col size total,
        t.1 < total ∧ t.2.1 < total ∧ t.1 * total + t.2.1 < total * total) := by
  refine qopt_strong_ind ?_
  intro o ih row col size total
  match o with
  | none => simp
  | some (.mk m e u c0 c1 c2 c3) =>
    rw [extract_writes_some]
    by_cases hcond : (u || size == 1) = true
    · rw [if_pos hcond]
      constructor
      · intro b
        rw [extract_pixels_some, if_pos hcond]
        rw [foldl_flatMap_eq]
        simp only [List.foldl_map]
        rfl
      · intro t ht
        simp only [List.mem_flatMap, List.mem_map] at ht
        obtain ⟨i, hi, j, hj, rfl⟩ := ht
        obtain ⟨_, _, hi2⟩ := mem_clampRange hi
        obtain ⟨_, _, hj2⟩ := mem_clampRange hj
        refine ⟨hi2, hj2, ?_⟩
        calc i * total + j < i * total + total := by omega
          _ = (i + 1) * total := by ring
          _ ≤ total * total := Nat.mul_le_mul_right _ (by omega)
    · rw [if_neg hcond]
      have ih0 := ih c0 (osize_c0_lt m e u c0 c1 c2 c3)
      have ih1 := ih c1 (osize_c1_lt m e u c0 c1 c2 c3)
      have ih2 := ih c2 (osize_c2_lt m e u c0 c1 c2 c3)
      have ih3 := ih c3 (osize_c3_lt m e u c0 c1 c2 c3)
      constructor
      · intro b
        rw [extract_pixels_some, if_neg hcond]
        rw [List.foldl_append, List.foldl_append, List.foldl_append]
        rw [(ih0 row col (size / 2) total).1,
            (ih1 row (col + size / 2) (size / 2) total).1,
            (ih2 (row + size / 2) (col + size / 2) (size / 2) total).1,
            (ih3 (row + size / 2) col (size / 2) total).1]
      · intro t ht
        simp only [List.mem_append] at ht
        rcases ht with ((h | h) | h) | h
        · exact (ih0 row col (size / 2) total).2 t h
        · exact (ih1 row (col + size / 2) (size / 2) total).2 t h
        · exact (ih2 (row + size / 2) (col + size / 2) (size / 2) total).2 t h
        · exact (ih3 (row + size / 2) col (size / 2) total).2 t h

/-- Witness for C10: a concrete malformed situation — a leaf whose block
hangs out of range (`row = 1, col = 1, size = 4` on a `2 × 2` buffer) still
writes only in-bounds indices, and the fold correspondence holds. -/
theorem C10_extract_pixels_writes_in_bounds_witness :
    (∀ b, extract_pixels (some (.mk 5 0 true none none none none)) b 1 1 4 2 =
      (extract_writes (some (.mk 5 0 true none none none none)) 1 1 4 2).foldl
        (fun acc t => writePix acc (t.1 * 2 + t.2.1) t.2.2) b) ∧
    ((1, 1, 5) ∈ extract_writes (some (.mk 5 0 true none none none none)) 1 1 4 2 ∧
      (1, (1 : Nat), (5 : Nat)).1 < 2 ∧ (1, (1 : Nat), (5 : Nat)).2.1 < 2 ∧
      (1, (1 : Nat), (5 : Nat)).1 * 2 + (1, (1 : Nat), (5 : Nat)).2.1 < 2 * 2) :=
  ⟨(C10_extract_pixels_writes_in_bounds (some (.mk 5 0 true none none none none)) 1 1 4 2).1,
   by decide,
   (C10_extract_pixels_writes_in_bounds (some (.mk 5 0 true none none none none)) 1 1 4 2).2
     (1, 1, 5) (by decide)⟩

/-! ## Bit writer and encoder (`codec/compression.c`) -/

/-- Writer state (`qtree_compress_state_t`): bit accumulator `buffer`, the
`bit_position` inside it, the bytes emitted so far (the contents of the
temporary file), and `total_bits`.  The `FILE*` handle and the I/O `error`
flag are not modelled — writes to the in-memory temporary cannot fail —
and `total_nodes`/`processed_nodes` are logging statistics only. -/
structure CompressState where
  buffer : Nat
  bit_position : Nat
  bytes_written : List Nat
  total_bits : Nat

/-- `compress_init`. -/
def compress_init : CompressState := ⟨0, 0, [], 0⟩

/-- `compress_write_bit`: or the bit into position `7 - bit_position`; on the
eighth bit emit the byte and reset the accumulator. -/
def compress_write_bit (s : CompressState) (bit : Nat) : CompressState :=
  let buffer := s.buffer ||| ((bit &&& 1) <<< (7 - s.bit_position))
  if s.bit_position + 1 = 8 then
    { buffer := 0, bit_position := 0, bytes_written := s.bytes_written ++ [buffer],
      total_bits := s.total_bits + 1 }
  else
    { buffer := buffer, bit_position := s.bit_position + 1,
      bytes_written := s.bytes_written, total_bits := s.total_bits + 1 }

/-- `compress_write_bits`: emit bits `num_bits-1` down to `0` of `value`,
MSB first. -/
def compress_write_bits (s : CompressState) (value num_bits : Nat) : CompressState :=
  (List.range num_bits).foldl
    (fun s i => compress_write_bit s ((value >>> (num_bits - 1 - i)) &&& 1)) s

/-- `compress_flush`: emit the pending partial byte (zero-padded). -/
def compress_flush (s : CompressState) : CompressState :=
  if s.bit_position = 0 then s
  else { buffer := 0, bit_position := 0, bytes_written := s.bytes_written ++ [s.buffer],
         total_bits := s.total_bits }

/-- `write_node`: emit the 8-bit mean unless the node's value is derived by
interpolation; for non-leaves emit the 2-bit residual and — when it is zero —
the 1-bit uniformity flag. -/
def write_node (s : CompressState) (n : QNode) (is_leaf is_interpolated : Bool) :
    CompressState :=
  let s1 := if !is_interpolated then compress_write_bits s n.m 8 else s
  if is_leaf then s1
  else
    let s2 := compress_write_bits s1 n.e 2
    if n.e == 0 then compress_write_bits s2 n.u.toNat 1 else s2

/-- `compress_tree_level` on a non-null node: at the target level write the
node (leafness decided by `e == 0 && u == 1 && current_level == n_levels`);
above it, recurse into the four children of a non-uniform node in quadrant
order, flagging the fourth child (`i == 3`) as interpolated. -/
def compress_tree_levelN (n_levels : Nat) :
    QNode → CompressState → Nat → Nat → Bool → CompressState
  | .mk m e u c0 c1 c2 c3, s, current_level, target_level, is_interpolated =>
    let is_leaf := e == 0 && u && current_level == n_levels
    if current_level == target_level then
      write_node s (.mk m e u c0 c1 c2 c3) is_leaf is_interpolated
    else if u == false then
      let s0 := match c0 with
        | none => s
        | some k => compress_tree_levelN n_levels k s (current_level + 1) target_level false
      let s1 := match c1 with
        | none => s0
        | some k => compress_tree_levelN n_levels k s0 (current_level + 1) target_level false
      let s2 := match c2 with
        | none => s1
        | some k => compress_tree_levelN n_levels k s1 (current_level + 1) target_level false
      match c3 with
        | none => s2
        | some k => compress_tree_levelN n_levels k s2 (current_level + 1) target_level true
    else s
termination_by structural n => n

/-- `compress_tree_level`: a null node writes nothing. -/
def compress_tree_level (n_levels : Nat) :
    Option QNode → CompressState → Nat → Nat → Bool → CompressState
  | none, s, _, _, _ => s
  | some n, s, current_level, target_level, is_interpolated =>
    compress_tree_levelN n_levels n s current_level target_level is_interpolated

theorem compress_tree_level_some (n_levels m e : Nat) (u : Bool)
    (c0 c1 c2 c3 : Option QNode) (s : CompressState)
    (current_level target_level : Nat) (is_interpolated : Bool) :
    compress_tree_level n_levels (some (.mk m e u c0 c1 c2 c3)) s
        current_level target_level is_interpolated =
      if current_level == target_level then
        write_node s (.mk m e u c0 c1 c2 c3)
          (e == 0 && u && current_level == n_levels) is_interpolated
      else if u == false then
        compress_tree_level n_levels c3
          (compress_tree_level n_levels c2
            (compress_tree_level n_levels c1
              (compress_tree_level n_levels c0 s
                (current_level + 1) target_level false)
              (current_level + 1) target_level false)
            (current_level + 1) target_level false)
          (current_level + 1) target_level true
      else s := by
  cases c0 <;> cases c1 <;> cases c2 <;> cases c3 <;> rfl

/-- `compress_tree_data`: one pass per level `0 .. n_levels` starting from the
root at depth 0, then flush the writer. -/
def compress_tree_data (t : QTree) : CompressState :=
  compress_flush
    ((List.range (t.n_levels + 1)).foldl
      (fun s level => compress_tree_level t.n_levels (some t.root) s 0 level false)
      compress_init)

/-- The header written by `write_header`: magic `Q1`, a newline, two
newline-terminated comment lines (the timestamp and the compression-rate
line, informational; their bytes are parameters here), and the depth byte —
the low byte of the `uint32_t` `n_levels`, as stored by
`fwrite(&tree->n_levels, sizeof(uint8_t), 1, file)` on a little-endian host. -/
def write_header (t : QTree) (comment1 comment2 : List Nat) : List Nat :=
  [0x51, 0x31, 0x0A] ++ comment1 ++ [0x0A] ++ comment2 ++ [0x0A] ++ [t.n_levels % 256]

/-- `compress`: the header followed by the flushed body bytes (the body is
produced into a temporary buffer first, then copied after the header). -/
def compress (t : QTree) (comment1 comment2 : List Nat) : List Nat :=
  write_header t comment1 comment2 ++ (compress_tree_data t).bytes_written

/-! ## Bit reader and decoder (`codec/decompression.c`) -/

/-- Reader state (`bit_reader_t`): current byte `buffer`, bit `position`
(8 means exhausted), the remaining input bytes, the end-of-file flag and the
sticky error flag.  The `stats` pointer is logging only and `error_msg` is
dropped. -/
structure BitReader where
  buffer : Nat
  position : Nat
  input : List Nat
  eof : Bool
  has_error : Bool

/-- `read_bit`: on an exhausted buffer pull the next byte (EOF latches both
`eof` and `has_error`); then return bit `7 - position` and advance. -/
def read_bit (r : BitReader) : Nat × BitReader :=
  if r.has_error || r.eof then (0, r)
  else if r.position == 8 then
    match r.input with
    | [] => (0, { r with eof := true, has_error := true })
    | b :: rest =>
      ((b >>> 7) &&& 1,
        { buffer := b, position := 1, input := rest, eof := r.eof, has_error := r.has_error })
  else
    ((r.buffer >>> (7 - r.position)) &&& 1, { r with position := r.position + 1 })

/-- The loop of `read_bits`, with `k` iterations left; `value` is a `uint8_t`
accumulator (hence the `% 256`).  Hitting EOF with more than one bit still to
read latches `has_error` and returns 0 (`i < num_bits - 1` in the source is
`k > 0` here). -/
def read_bits_go : Nat → Nat → BitReader → Nat × BitReader
  | 0, value, r => (value, r)
  | k + 1, value, r =>
    let p := read_bit r
    let value1 := ((value <<< 1) ||| p.1) % 256
    if p.2.eof && decide (k > 0) then (0, { p.2 with has_error := true })
    else read_bits_go k value1 p.2

/-- `read_bits`: up to 8 bits, MSB first; a no-op returning 0 on a latched
error, at EOF, or for `num_bits > 8`. -/
def read_bits (r : BitReader) (num_bits : Nat) : Nat × BitReader :=
  if r.has_error || r.eof || decide (num_bits > 8) then (0, r)
  else read_bits_go num_bits 0 r

/-- `calculate_fourth_mean` (`common/common.c`): `int32_t` arithmetic
`(4*parent_mean + error) - (m1+m2+m3)`, then the `(uint8_t)` conversion,
i.e. reduction mod 256. -/
def calculate_fourth_mean (parent_mean error m1 m2 m3 : Nat) : Nat :=
  ((4 * (parent_mean : Int) + (error : Int) - ((m1 : Int) + (m2 : Int) + (m3 : Int))) % 256).toNat

/-- The data of one decoded node before its children exist: `m`, `e`, `u`.
(`decompress_node` callocs a `qtree_node_t` with null children; the children
are attached by `decompress_level` afterwards, which `assemble_tree` models.) -/
structure NodeRec where
  m : Nat
  e : Nat
  u : Bool
deriving DecidableEq, Repr

/-- What the fourth-child mean computation reads from the parent node: its
mean, residual, and the means of its three already-attached children. -/
structure ParentInfo where
  m : Nat
  e : Nat
  m0 : Nat
  m1 : Nat
  m2 : Nat

/-- The "process node attributes based on level" block of `decompress_node`:
below `max_level` read the 2-bit residual and, when it is zero, the
uniformity bit; at `max_level` the node is an implicit uniform leaf. -/
def decompress_node_attrs (r : BitReader) (level max_level m : Nat) :
    Option NodeRec × BitReader :=
  if level < max_level then
    let pe := read_bits r 2
    let pu := if pe.1 == 0 then read_bit pe.2 else (0, pe.2)
    (some ⟨m, pe.1, pu.1 == 1⟩, pu.2)
  else (some ⟨m, 0, true⟩, r)

/-- `decompress_node`: a latched reader error yields NULL.  Children 0–2 read
their 8-bit mean; child 3 derives it via `calculate_fourth_mean` from the
parent (a missing/incomplete parent — impossible in the call pattern of
`decompress_level`, which always attaches children 0–2 first — is the
"Invalid parent node structure" NULL return with the error latched). -/
def decompress_node (r : BitReader) (level max_level : Nat)
    (parent : Option ParentInfo) (child_index : Nat) : Option NodeRec × BitReader :=
  if r.has_error then (none, r)
  else if child_index < 3 then
    let p8 := read_bits r 8
    decompress_node_attrs p8.2 level max_level p8.1
  else
    match parent with
    | none => (none, { r with has_error := true })
    | some p =>
      decompress_node_attrs r level max_level
        (calculate_fourth_mean p.m p.e p.m0 p.m1 p.m2)

/-- The inner `for (j = 0; j < 4; j++)` of `decompress_level`: decode the four
children of one non-uniform parent; the fourth sees the parent data and the
three sibling means.  A NULL child aborts the level. -/
def decompress_children (r : BitReader) (p : NodeRec) (level max_level : Nat) :
    Option (List NodeRec) × BitReader :=
  match decompress_node r level max_level none 0 with
  | (none, r) => (none, r)
  | (some k0, r) =>
    match decompress_node r level max_level none 1 with
    | (none, r) => (none, r)
    | (some k1, r) =>
      match decompress_node r level max_level none 2 with
      | (none, r) => (none, r)
      | (some k2, r) =>
        match decompress_node r level max_level (some ⟨p.m, p.e, k0.m, k1.m, k2.m⟩) 3 with
        | (none, r) => (none, r)
        | (some k3, r) => (some [k0, k1, k2, k3], r)

/-- `decompress_level`: walk the previous level's nodes in order; the loop
guard `i < prev_level_size && !reader->has_error` stops (returning the nodes
decoded so far) once an error is latched; uniform parents are skipped;
each non-uniform parent contributes its four children in order. -/
def decompress_level (r : BitReader) :
    List NodeRec → Nat → Nat → Option (List NodeRec) × BitReader
  | [], _, _ => (some [], r)
  | p :: rest, level, max_level =>
    if r.has_error then (some [], r)
    else if p.u then decompress_level r rest level max_level
    else
      match decompress_children r p level max_level with
      | (none, r1) => (none, r1)
      | (some ks, r1) =>
        match decompress_level r1 rest level max_level with
        | (none, r2) => (none, r2)
        | (some more, r2) => (some (ks ++ more), r2)

/-- The `for (level = 1; level <= n_levels && !reader.has_error; level++)`
loop of `qtree_decompress`, with `count` levels left, collecting each level's
node records (for the assembly of the pointer structure below).  A NULL level
return is the immediate `QTREE_ERROR_FORMAT` exit. -/
def decompress_levels (max_level : Nat) :
    Nat → Nat → List NodeRec → BitReader → Option (List (List NodeRec)) × BitReader
  | _, 0, _, r => (some [], r)
  | level, count + 1, prev, r =>
    if r.has_error then (some [], r)
    else
      match decompress_level r prev level max_level with
      | (none, r1) => (none, r1)
      | (some cur, r1) =>
        match decompress_levels max_level (level + 1) count cur r1 with
        | (none, r2) => (none, r2)
        | (some rest, r2) => (some (cur :: rest), r2)

/-- A freshly decoded node: the record's data with the calloc'd null
children. -/
def node_of_rec (rec : NodeRec) : QNode := .mk rec.m rec.e rec.u none none none none

/-- Attach the already-assembled nodes of level `k+1` (in order) to the
records of level `k`: uniform nodes keep their null children, non-uniform
nodes consume four consecutive children — exactly the assignment
`parent->children[j] = current_level[current_idx++]` of `decompress_level`. -/
def attach_level : List NodeRec → List QNode → List QNode
  | [], _ => []
  | rec :: rest, children =>
    if rec.u then node_of_rec rec :: attach_level rest children
    else
      match children with
      | k0 :: k1 :: k2 :: k3 :: more =>
        .mk rec.m rec.e rec.u (some k0) (some k1) (some k2) (some k3) :: attach_level rest more
      | _ => node_of_rec rec :: attach_level rest []

/-- Assemble the pointer structure from the per-level records, bottom-up. -/
def assemble_levels : List (List NodeRec) → List NodeRec → List QNode
  | [], recs => recs.map node_of_rec
  | next :: rest, recs => attach_level recs (assemble_levels rest next)

/-- The tree rooted at the decoded root record. -/
def assemble_tree (rootRec : NodeRec) (levels : List (List NodeRec)) : QNode :=
  match assemble_levels levels [rootRec] with
  | [n] => n
  | _ => node_of_rec rootRec

/-- The body-decoding part of `qtree_decompress`: decode the root at level 0,
then the levels `1 .. n_levels`; the status is `error_format` iff a node or
level came back NULL or the reader latched an error, else `success`. -/
def qtree_decompress_body (n_levels : Nat) (body : List Nat) :
    QtreeStatus × Option (NodeRec × List (List NodeRec)) × BitReader :=
  let r0 : BitReader := ⟨0, 8, body, false, false⟩
  match decompress_node r0 0 n_levels none 0 with
  | (none, r) => (.error_format, none, r)
  | (some rootRec, r) =>
    match decompress_levels n_levels 1 n_levels [rootRec] r with
    | (none, r1) => (.error_format, none, r1)
    | (some levels, r1) =>
      if r1.has_error then (.error_format, none, r1)
      else (.success, some (rootRec, levels), r1)

/-- `fgets(line, 256, file)` as used on the comment lines: consume one line —
up to and including the first newline, or at most 255 bytes, whichever comes
first; `none` at EOF. -/
def fgets255 (input : List Nat) : Option (List Nat) :=
  match input with
  | [] => none
  | _ =>
    let firstPart := input.take 255
    let k := firstPart.findIdx (· == 0x0A)
    if k < firstPart.length then some (input.drop (k + 1)) else some (input.drop 255)

/-- `process_file_header`: check the magic `Q1\n`, consume two comment lines,
read the depth byte.  `none` models every early `return` taken *before*
`*levels` is stored — in the C code those only log and leave `n_levels`
uninitialized in the caller.  NOTE (C4): the depth range check `1 ≤ L ≤ 32`
happens *after* `*levels` is stored, also only logs, and the `void` return
gives the caller nothing to test — so an out-of-range depth byte is handed
back exactly like a valid one. -/
def process_file_header (input : List Nat) : Option (Nat × List Nat) :=
  match input with
  | 0x51 :: 0x31 :: 0x0A :: rest =>
    match fgets255 rest with
    | none => none
    | some rest1 =>
      match fgets255 rest1 with
      | none => none
      | some rest2 =>
        match rest2 with
        | [] => none
        | b :: tail => some (b, tail)
  | _ => none

/-- `qtree_decompress` — its deterministic fragment.  When
`process_file_header` bails out before storing the depth byte, the caller
continues with an *uninitialized* `n_levels` (undefined behaviour), which the
model cannot represent: that case is `none`.  Otherwise the decode proceeds
with whatever depth byte was read (`tree->size = 1 << n_levels`), the status
is `error_format` iff a decode step failed or the reader latched an error,
and on success the assembled tree is returned. -/
def qtree_decompress (input : List Nat) :
    Option (QtreeStatus × Option QTree × BitReader) :=
  match process_file_header input with
  | none => none
  | some (n_levels, body) =>
    match qtree_decompress_body n_levels body with
    | (.success, some (rootRec, levels), r) =>
      some (.success,
            some { root := assemble_tree rootRec levels,
                   n_levels := n_levels, size := 2 ^ n_levels },
            r)
    | (st, _, r) => some (st, none, r)

/-! ## Bit-list view of the encoder -/

/-- The MSB-first bit string of the low `n` bits of `v` — the bits
`compress_write_bits` emits, in order. -/
def bitsMSB (v n : Nat) : List Nat :=
  (List.range n).map (fun i => (v >>> (n - 1 - i)) &&& 1)

/-- Append a whole bit string with `compress_write_bit`. -/
def write_bit_list (s : CompressState) (bs : List Nat) : CompressState :=
  bs.foldl compress_write_bit s

theorem write_bit_list_append (s : CompressState) (a b : List Nat) :
    write_bit_list s (a ++ b) = write_bit_list (write_bit_list s a) b :=
  List.foldl_append _ _ _ _

@[simp] theorem write_bit_list_nil (s : CompressState) : write_bit_list s [] = s := rfl

theorem compress_write_bits_eq_list (s : CompressState) (v n : Nat) :
    compress_write_bits s v n = write_bit_list s (bitsMSB v n) := by
  unfold compress_write_bits write_bit_list bitsMSB
  rw [List.foldl_map]

/-- The bit string `write_node` emits: the 8-bit mean unless interpolated,
then — for non-leaves — the 2-bit residual and the uniformity bit when the
residual is zero. -/
def write_node_bits (n : QNode) (is_leaf is_interpolated : Bool) : List Nat :=
  (if !is_interpolated then bitsMSB n.m 8 else []) ++
  (if is_leaf then []
   else bitsMSB n.e 2 ++ (if n.e == 0 then bitsMSB n.u.toNat 1 else []))

theorem write_node_eq_list (s : CompressState) (n : QNode)
    (is_leaf is_interpolated : Bool) :
    write_node s n is_leaf is_interpolated =
      write_bit_list s (write_node_bits n is_leaf is_interpolated) := by
  unfold write_node write_node_bits
  cases is_interpolated <;> cases is_leaf <;>
    by_cases he : (n.e == 0) = true <;>
    simp [he, write_bit_list_append, compress_write_bits_eq_list]

/-- The nodes `compress_tree_level` visits at relative depth `d` below a
node (descending only through non-uniform nodes, in quadrant order), each
paired with the `is_interpolated` flag it is visited with: at depth 0 the
node keeps the flag of the call, and each recursion step passes `i == 3` —
true exactly for the fourth (BL) child. -/
def visitedAt : Option QNode → Bool → Nat → List (QNode × Bool)
  | none, _, _ => []
  | some n, interp, 0 => [(n, interp)]
  | some n, _, d + 1 =>
    if n.u = false then
      visitedAt n.c0 false d ++ visitedAt n.c1 false d ++
      visitedAt n.c2 false d ++ visitedAt n.c3 true d
    else []

/-- One pass of the encoder, as the concatenation of the per-node bit
strings over the visited nodes. -/
theorem compress_tree_level_visited (n_levels : Nat) :
    ∀ (d : Nat) (o : Option QNode) (s : CompressState) (cur : Nat) (interp : Bool),
      compress_tree_level n_levels o s cur (cur + d) interp =
        write_bit_list s
          ((visitedAt o interp d).flatMap
            (fun p => write_node_bits p.1
              (p.1.e == 0 && p.1.u && (cur + d) == n_levels) p.2)) := by
  intro d
  induction d with
  | zero =>
    intro o s cur interp
    cases o with
    | none => rfl
    | some n =>
      obtain ⟨m, e, u, c0, c1, c2, c3⟩ := n
      rw [compress_tree_level_some]
      simp only [Nat.add_zero, beq_self_eq_true, if_true, visitedAt,
        List.flatMap_cons, List.flatMap_nil, List.append_nil]
      exact write_node_eq_list s _ _ interp
  | succ d ih =>
    intro o s cur interp
    cases o with
    | none => rfl
    | some n =>
      obtain ⟨m, e, u, c0, c1, c2, c3⟩ := n
      rw [compress_tree_level_some]
      have hne : (cur == cur + (d + 1)) = false := by
        simp only [beq_eq_false_iff_ne, ne_eq]
        omega
      rw [hne]
      simp only [Bool.false_eq_true, if_false]
      cases u with
      | false =>
        simp only [beq_self_eq_true, if_true, visitedAt, QNode.u_mk, QNode.c0_mk,
          QNode.c1_mk, QNode.c2_mk, QNode.c3_mk, if_pos rfl]
        have harith : cur + (d + 1) = (cur + 1) + d := by omega
        rw [harith]
        rw [ih c0 s (cur + 1) false, ih c1 _ (cur + 1) false,
          ih c2 _ (cur + 1) false, ih c3 _ (cur + 1) true]
        simp only [List.flatMap_append, write_bit_list_append]
      | true =>
        simp only [visitedAt, QNode.u_mk]
        norm_num

/-! ## C3: which nodes emit a mean, and as how many bits -/

/-- **C3.** During encoding pass `k`, the bits written are the concatenation,
over the visited nodes (in order, each carrying its `is_interpolated` flag),
of their `write_node` bit strings; a node with flag `true` emits no mean bits
at all while a node with flag `false` emits its mean as exactly 8 bits before
its attribute bits; the root pass visits exactly the root with flag `false`;
and at every deeper pass the flag of a visited node is `true` exactly when it
was reached as the fourth (BL) child of its parent. -/
theorem C3_mean_emitted_iff_not_BL (n_levels k : Nat) (root : QNode) (s : CompressState) :
    (compress_tree_level n_levels (some root) s 0 k false =
      write_bit_list s
        ((visitedAt (some root) false k).flatMap
          (fun p => write_node_bits p.1 (p.1.e == 0 && p.1.u && k == n_levels) p.2))) ∧
    (∀ (q : QNode) (is_leaf : Bool),
      write_node_bits q is_leaf true =
        bitsMSB q.e 2 ++ (if q.e == 0 then bitsMSB q.u.toNat 1 else []) ∨ is_leaf = true) ∧
    (∀ (q : QNode) (is_leaf : Bool),
      write_node_bits q is_leaf false =
        bitsMSB q.m 8 ++
          (if is_leaf then []
           else bitsMSB q.e 2 ++ (if q.e == 0 then bitsMSB q.u.toNat 1 else [])) ∧
      (bitsMSB q.m 8).length = 8) ∧
    visitedAt (some root) false 0 = [(root, false)] ∧
    (∀ (q : QNode) (d : Nat) (b : Bool), q.u = false →
      visitedAt (some q) b (d + 1) =
        visitedAt q.c0 false d ++ visitedAt q.c1 false d ++
        visitedAt q.c2 false d ++ visitedAt q.c3 true d) := by
  refine ⟨?_, ?_, ?_, rfl, ?_⟩
  · have := compress_tree_level_visited n_levels k (some root) s 0 false
    simpa using this
  · intro q is_leaf
    cases is_leaf with
    | true => exact Or.inr rfl
    | false =>
      left
      unfold write_node_bits
      simp
  · intro q is_leaf
    constructor
    · unfold write_node_bits
      simp
    · simp [bitsMSB]
  · intro q d b hu
    obtain ⟨m, e, u, c0, c1, c2, c3⟩ := q
    simp only [QNode.u_mk] at hu
    subst hu
    simp [visitedAt]

/-- Witness for C3 at a concrete tree: the 2×2 build of `[1,2,3,4]` has a
non-uniform root, so its depth-1 pass visits the four leaves with flags
`false, false, false, true` (BL last). -/
theorem C3_mean_emitted_iff_not_BL_witness :
    (compress_tree_level 1 (some (build_recursive (fun i => [1, 2, 3, 4].getD i 0) 2 1 0 0))
        compress_init 0 1 false =
      write_bit_list compress_init
        ((visitedAt (some (build_recursive (fun i => [1, 2, 3, 4].getD i 0) 2 1 0 0)) false 1).flatMap
          (fun p => write_node_bits p.1 (p.1.e == 0 && p.1.u && 1 == 1) p.2))) ∧
    (build_recursive (fun i => [1, 2, 3, 4].getD i 0) 2 1 0 0).u = false ∧
    visitedAt (some (build_recursive (fun i => [1, 2, 3, 4].getD i 0) 2 1 0 0)) false 1 =
      [(.mk 1 0 true none none none none, false), (.mk 2 0 true none none none none, false),
       (.mk 4 0 true none none none none, false), (.mk 3 0 true none none none none, true)] :=
  ⟨(C3_mean_emitted_iff_not_BL 1 1 _ compress_init).1, by decide, rfl⟩

/-- Decompress a full stream and render pixel `idx` of the output image
(the composition `qtree_decompress` then `qtree_to_pgm`/`extract_pixels`,
starting from the calloc'd all-zero buffer); `none` when decompression did
not succeed. -/
def decode_render (input : List Nat) (idx : Nat) : Option Nat :=
  match qtree_decompress input with
  | some (.success, some t, _) =>
    some (extract_pixels (some t.root) (fun _ => 0) 0 0 t.size t.size idx)
  | _ => none

/-! ## C7: the uniform 2×2 scenario -/

/-- **C7** (counterexample). For the 2×2 input `[7,7,7,7]` the encoded body
is *not* `0x07, 0xC0` as the claim states. -/
theorem C7_encoded_body_not_07C0 :
    (compress_tree_data (qtree_build (fun _ : Nat => 7) (2 ^ 1))).bytes_written ≠
      [0x07, 0xC0] := by
  rw [qtree_build_pow2]
  decide

/-- **C7** (amended). For the 2×2 input pixels `[7,7,7,7]`: build yields a
uniform root with `m=7, e=0, u=1`; the encoded body is the bit sequence
`00000111` (8 bits), `00` (2 bits), `1` (1 bit), zero-padded to a byte
boundary — which packs to the two bytes `0x07, 0x20` (not `0x07, 0xC0`) —
and decoding the compressed stream then rendering yields `[7,7,7,7]`. -/
theorem C7_uniform_2x2_roundtrip :
    (qtree_build (fun _ : Nat => 7) (2 ^ 1)).root.m = 7 ∧
    (qtree_build (fun _ : Nat => 7) (2 ^ 1)).root.e = 0 ∧
    (qtree_build (fun _ : Nat => 7) (2 ^ 1)).root.u = true ∧
    (compress_tree_data (qtree_build (fun _ : Nat => 7) (2 ^ 1))).bytes_written =
      [0x07, 0x20] ∧
    (∀ idx < 4,
      decode_render (compress (qtree_build (fun _ : Nat => 7) (2 ^ 1)) [0x23] [0x23]) idx =
        some 7) := by
  rw [qtree_build_pow2]
  refine ⟨by decide, by decide, by decide, by decide, ?_⟩
  decide

/-! ## C4: header validation is log-only -/

/-- **C4** (code bug). The stream `"Q1\n" ++ "#\n" ++ "#\n" ++ [0x00, 0x07]`
has a depth byte of 0, outside the documented range `1..32` — yet
`qtree_decompress` returns `QTREE_SUCCESS` (and a decoded depth-0 tree), not
`QTREE_ERROR_FORMAT`: `process_file_header` only logs the range violation
and returns `void`, so the caller proceeds with the bad depth. -/
theorem C4_depth_byte_zero_accepted :
    (qtree_decompress [0x51, 0x31, 0x0A, 0x23, 0x0A, 0x23, 0x0A, 0x00, 0x07]).map
        (fun res => res.1) = some QtreeStatus.success ∧
    (0 : Nat) < 1 := by
  exact ⟨by decide, by decide⟩

/-! ## C6: truncated body yields Format -/

/-- The reader flag invariant: once `eof` is latched, `has_error` is too
(`read_bit` sets both on a failed pull and nothing ever clears them). -/
def EofImpErr (r : BitReader) : Prop := r.eof = true → r.has_error = true

theorem read_bit_eofImpErr {r : BitReader} (h : EofImpErr r) :
    EofImpErr (read_bit r).2 := by
  unfold read_bit
  split
  · exact h
  · split
    · split
      · intro _; rfl
      · exact h
    · exact h

theorem read_bits_go_eofImpErr : ∀ (k value : Nat) {r : BitReader}, EofImpErr r →
    EofImpErr (read_bits_go k value r).2 := by
  intro k
  induction k with
  | zero => intro value r h; exact h
  | succ k ih =>
    intro value r h
    simp only [read_bits_go]
    split
    · intro _; rfl
    · exact ih _ (read_bit_eofImpErr h)

theorem read_bits_eofImpErr {r : BitReader} (h : EofImpErr r) (n : Nat) :
    EofImpErr (read_bits r n).2 := by
  unfold read_bits
  split
  · exact h
  · exact read_bits_go_eofImpErr n 0 h

theorem decompress_node_attrs_eofImpErr {r : BitReader} (h : EofImpErr r)
    (level max_level m : Nat) :
    EofImpErr (decompress_node_attrs r level max_level m).2 := by
  unfold decompress_node_attrs
  split
  · dsimp only
    have h2 := read_bits_eofImpErr h 2
    split
    · exact read_bit_eofImpErr h2
    · exact h2
  · exact h

theorem decompress_node_eofImpErr {r : BitReader} (h : EofImpErr r)
    (level max_level : Nat) (parent : Option ParentInfo) (child_index : Nat) :
    EofImpErr (decompress_node r level max_level parent child_index).2 := by
  unfold decompress_node
  split
  · exact h
  · split
    · exact decompress_node_attrs_eofImpErr (read_bits_eofImpErr h 8) level max_level _
    · split
      · intro _; rfl
      · exact decompress_node_attrs_eofImpErr h level max_level _

theorem decompress_children_eofImpErr {r : BitReader} (h : EofImpErr r)
    (p : NodeRec) (level max_level : Nat) :
    EofImpErr (decompress_children r p level max_level).2 := by
  unfold decompress_children
  rcases hq0 : decompress_node r level max_level none 0 with ⟨o0, r0⟩
  have h0 := decompress_node_eofImpErr h level max_level none 0
  rw [hq0] at h0
  cases o0 with
  | none => exact h0
  | some k0 =>
    dsimp only
    rcases hq1 : decompress_node r0 level max_level none 1 with ⟨o1, r1⟩
    have h1 := decompress_node_eofImpErr h0 level max_level none 1
    rw [hq1] at h1
    cases o1 with
    | none => exact h1
    | some k1 =>
      dsimp only
      rcases hq2 : decompress_node r1 level max_level none 2 with ⟨o2, r2⟩
      have h2 := decompress_node_eofImpErr h1 level max_level none 2
      rw [hq2] at h2
      cases o2 with
      | none => exact h2
      | some k2 =>
        dsimp only
        rcases hq3 : decompress_node r2 level max_level
            (some ⟨p.m, p.e, k0.m, k1.m, k2.m⟩) 3 with ⟨o3, r3⟩
        have h3 := decompress_node_eofImpErr h2 level max_level
          (some ⟨p.m, p.e, k0.m, k1.m, k2.m⟩) 3
        rw [hq3] at h3
        cases o3 with
        | none => exact h3
        | some k3 => exact h3

theorem decompress_level_eofImpErr :
    ∀ (prev : List NodeRec) {r : BitReader}, EofImpErr r → ∀ (level max_level : Nat),
    EofImpErr (decompress_level r prev level max_level).2 := by
  intro prev
  induction prev with
  | nil => intro r h level max_level; exact h
  | cons p rest ih =>
    intro r h level max_level
    simp only [decompress_level]
    split
    · exact h
    · split
      · exact ih h level max_level
      · have hc := decompress_children_eofImpErr h p level max_level
        split
        · rename_i heq; rw [heq] at hc; exact hc
        · rename_i r1 heq; rw [heq] at hc
          have hl := ih hc level max_level
          split
          · rename_i heq1; rw [heq1] at hl; exact hl
          · rename_i heq1; rw [heq1] at hl; exact hl

theorem decompress_levels_eofImpErr :
    ∀ (count level : Nat) (prev : List NodeRec) {r : BitReader}, EofImpErr r →
    ∀ (max_level : Nat), EofImpErr (decompress_levels max_level level count prev r).2 := by
  intro count
  induction count with
  | zero => intro level prev r h max_level; exact h
  | succ count ih =>
    intro level prev r h max_level
    simp only [decompress_levels]
    split
    · exact h
    · have hl := decompress_level_eofImpErr prev h level max_level
      split
      · rename_i heq; rw [heq] at hl; exact hl
      · rename_i cur r1 heq; rw [heq] at hl
        have hr := ih (level + 1) cur hl max_level
        split
        · rename_i heq1; rw [heq1] at hr; exact hr
        · rename_i heq1; rw [heq1] at hr; exact hr

/-- **C6.** If the decoder's bit reader hits end of input while it needs to
pull a byte for a bit read — the `eof` flag is latched at the end of the body
decode — then `qtree_decompress` returns `QTREE_ERROR_FORMAT`. -/
theorem C6_truncated_body_is_format_error (n_levels : Nat) (body : List Nat)
    (heof : (qtree_decompress_body n_levels body).2.2.eof = true) :
    (qtree_decompress_body n_levels body).1 = QtreeStatus.error_format := by
  have hinit : EofImpErr (⟨0, 8, body, false, false⟩ : BitReader) := by
    intro h; cases h
  unfold qtree_decompress_body at heof ⊢
  dsimp only at heof ⊢
  have h0 := decompress_node_eofImpErr hinit 0 n_levels none 0
  split at heof
  · rfl
  · rename_i rootRec r heq
    rw [heq] at h0
    have h1 := decompress_levels_eofImpErr n_levels 1 [rootRec] h0 n_levels
    split at heof
    · rfl
    · rename_i levels r1 heq1
      rw [heq1] at h1
      split at heof
      · rename_i herr1
        rw [if_pos herr1]
      · rename_i hnoerr
        simp only at heof
        exact absurd (h1 heof) hnoerr

/-- Witness for C6: the body `[0x00]` with depth 1 runs out of input while
reading the root's residual bits. -/
theorem C6_truncated_body_is_format_error_witness :
    (qtree_decompress_body 1 [0x00]).2.2.eof = true ∧
    (qtree_decompress_body 1 [0x00]).1 = QtreeStatus.error_format :=
  ⟨by decide, C6_truncated_body_is_format_error 1 [0x00] (by decide)⟩

/-! ## Lossy filter (`apply_lossy_compression` and the variance machinery)

The C code stores a `float v = sqrtf(μ/4)` per node and compares `v <= t`
against thresholds `t = t0 * alpha^depth` with `t0 = median/max` of the
positive variances.  Every compared quantity is non-negative, and every use
of a stored `v` is as `v * v`, so this model tracks the *squares* of all of
them in exact (unreduced) non-negative fraction arithmetic: `vsq` is `v²`,
thresholds are `t²`, the per-level factor is `alpha²`, and the initial
threshold is `median²/max²` (squaring is monotone on non-negatives, and the
median/maximum of the squared list are the squares of the float code's
median/maximum, sorting being preserved).  Every branch of the float code is
thereby decided exactly as in its exact-real idealization.  The one non-real
float value that can arise is `t0 = 0.0f/0.0f = NaN` when no positive
variance exists; IEEE comparisons against NaN are false, which the model
renders as an `Option` threshold whose `none` compares false and absorbs
multiplication. -/

/-- Non-negative rational values as unreduced `num/den` fraction pairs;
denominators are positive by construction in all uses below, making every
operation and comparison exact rational arithmetic (comparisons
cross-multiply, so they are value-level, and unreduced representations are
harmless). -/
structure NNFrac where
  num : Nat
  den : Nat
deriving DecidableEq, Repr

namespace NNFrac

/-- The rational value represented. -/
def val (a : NNFrac) : ℚ := (a.num : ℚ) / (a.den : ℚ)

def ofNat (n : Nat) : NNFrac := ⟨n, 1⟩

def add (a b : NNFrac) : NNFrac := ⟨a.num * b.den + b.num * a.den, a.den * b.den⟩

def mul (a b : NNFrac) : NNFrac := ⟨a.num * b.num, a.den * b.den⟩

/-- Division (used only with a positive divisor). -/
def dvd (a b : NNFrac) : NNFrac := ⟨a.num * b.den, a.den * b.num⟩

/-- `a / 4`. -/
def div4 (a : NNFrac) : NNFrac := ⟨a.num, a.den * 4⟩

/-- Value-level `a ≤ b` by cross-multiplication (valid for positive
denominators). -/
def le (a b : NNFrac) : Bool := decide (a.num * b.den ≤ b.num * a.den)

/-- Value-level `0 < a`. -/
def pos (a : NNFrac) : Bool := decide (0 < a.num)

/-- Value-level `a = 0`. -/
def isZero (a : NNFrac) : Bool := a.num == 0

theorem val_add {a b : NNFrac} (ha : 0 < a.den) (hb : 0 < b.den) :
    (a.add b).val = a.val + b.val := by
  unfold val add
  have ha' : (a.den : ℚ) ≠ 0 := by positivity
  have hb' : (b.den : ℚ) ≠ 0 := by positivity
  push_cast
  field_simp

theorem val_mul (a b : NNFrac) : (a.mul b).val = a.val * b.val := by
  unfold val mul
  push_cast
  rw [div_mul_div_comm]

theorem val_div4 (a : NNFrac) : (a.div4).val = a.val / 4 := by
  unfold val div4
  push_cast
  rw [div_div]

theorem le_iff_val {a b : NNFrac} (ha : 0 < a.den) (hb : 0 < b.den) :
    le a b = true ↔ a.val ≤ b.val := by
  unfold le val
  rw [decide_eq_true_iff]
  rw [div_le_div_iff₀ (by positivity) (by positivity)]
  constructor
  · intro h
    exact_mod_cast h
  · intro h
    exact_mod_cast h

end NNFrac

/-- The squared difference `(m - k)²` of two byte means, in `Nat`
(one of the two truncated differences is zero). -/
def diffSq (a b : Nat) : Nat := ((a - b) + (b - a)) * ((a - b) + (b - a))

/-- Squared node variance — `calculate_node_variance` in `core/quadtree.c`
and the identical `update_node_variance` in `codec/compression.c`: zero for
leaves (and for the null children the C loops skip), else
`μ/4` with `μ = Σ_k (v_k² + (m − m_k)²)` over the present children. -/
def vsq : QNode → NNFrac
  | .mk m _ _ c0 c1 c2 c3 =>
    if c0.isNone && c1.isNone && c2.isNone && c3.isNone then ⟨0, 1⟩
    else
      NNFrac.div4
        ((((match c0 with
            | none => NNFrac.ofNat 0
            | some k => (vsq k).add ⟨diffSq m k.m, 1⟩).add
           (match c1 with
            | none => NNFrac.ofNat 0
            | some k => (vsq k).add ⟨diffSq m k.m, 1⟩)).add
          (match c2 with
           | none => NNFrac.ofNat 0
           | some k => (vsq k).add ⟨diffSq m k.m, 1⟩)).add
         (match c3 with
          | none => NNFrac.ofNat 0
          | some k => (vsq k).add ⟨diffSq m k.m, 1⟩))
termination_by structural n => n

/-- `calculate_variances_recursive`: post-order walk computing each node's
variance and collecting the strictly positive ones. -/
def collect_variances : QNode → List NNFrac
  | .mk m e u c0 c1 c2 c3 =>
    (match c0 with | none => [] | some k => collect_variances k) ++
    (match c1 with | none => [] | some k => collect_variances k) ++
    (match c2 with | none => [] | some k => collect_variances k) ++
    (match c3 with | none => [] | some k => collect_variances k) ++
    (if (vsq (.mk m e u c0 c1 c2 c3)).pos then [vsq (.mk m e u c0 c1 c2 c3)] else [])
termination_by structural n => n

/-- `qtree_variance_stats_t`, on squared variances. -/
structure VarianceStats where
  median_variance : NNFrac
  max_variance : NNFrac

/-- Insert into an ascending list (value order). -/
def insertSorted (x : NNFrac) : List NNFrac → List NNFrac
  | [] => [x]
  | y :: ys => if x.le y then x :: y :: ys else y :: insertSorted x ys

/-- Ascending insertion sort — the model of the `qsort(..., compare_floats)`
call: any correct ascending sort yields the same value sequence. -/
def sortAsc : List NNFrac → List NNFrac
  | [] => []
  | x :: xs => insertSorted x (sortAsc xs)

/-- `calculate_variance_stats`: collect the positive variances; when any
exist, sort ascending and take `sorted[count/2]` and `sorted[count-1]`;
otherwise both statistics stay 0. -/
def calculate_variance_stats (t : QTree) : VarianceStats :=
  let variances := collect_variances t.root
  if variances.length > 0 then
    let sorted := sortAsc variances
    { median_variance := sorted.getD (variances.length / 2) (NNFrac.ofNat 0)
      max_variance := sorted.getD (variances.length - 1) (NNFrac.ofNat 0) }
  else
    { median_variance := NNFrac.ofNat 0, max_variance := NNFrac.ofNat 0 }

/-- `is_uniform_block` (`codec/compression.c`): false when `e ≠ 0`, when a
present child is not uniform, or when a present child's mean differs from
`children[0]`'s (children past a null `children[0]` are unconstrained on the
mean, as in the source). -/
def is_uniform_block : Option QNode → Bool
  | none => true
  | some n =>
    if n.e != 0 then false
    else if (match n.c0 with | some k => !k.u | none => false) ||
            (match n.c1 with | some k => !k.u | none => false) ||
            (match n.c2 with | some k => !k.u | none => false) ||
            (match n.c3 with | some k => !k.u | none => false) then false
    else
      match n.c0 with
      | none => true
      | some k0 =>
        if (match n.c1 with | some k => k.m != k0.m | none => false) ||
           (match n.c2 with | some k => k.m != k0.m | none => false) ||
           (match n.c3 with | some k => k.m != k0.m | none => false) then false
        else true

/-- A squared threshold; `none` is the float code's NaN. -/
def Threshold : Type := Option NNFrac

/-- `v <= threshold` on squares; every comparison with NaN is false. -/
def thr_le (w : NNFrac) : Threshold → Bool
  | none => false
  | some t => w.le t

/-- `threshold * alpha` on squares; NaN absorbs. -/
def thr_scale (t : Threshold) (alphaSq : NNFrac) : Threshold :=
  t.map (fun x => x.mul alphaSq)

/-- `filter_node_recursive`: leaves return 1 untouched; otherwise recompute
the node's variance (`update_node_variance` — at this point the subtree is
still unmodified, so it equals the post-order value), filter the present
children with threshold `t * alpha`, and (1) when `v ≤ t` and all children
came back uniform, promote: `u = 1`, `e = 0`, children freed; else (2) set
`u = is_uniform_block(node)` on the updated children and return it.
The pair returned is (updated node, C return value). -/
def filter_node_recursive : QNode → Threshold → NNFrac → QNode × Bool
  | .mk m e u c0 c1 c2 c3, threshold, alphaSq =>
    if c0.isNone && c1.isNone && c2.isNone && c3.isNone then
      (.mk m e u c0 c1 c2 c3, true)
    else
      let w := vsq (.mk m e u c0 c1 c2 c3)
      let p0 := match c0 with
        | none => ((none : Option QNode), true)
        | some k =>
          let r := filter_node_recursive k (thr_scale threshold alphaSq) alphaSq
          (some r.1, r.2)
      let p1 := match c1 with
        | none => ((none : Option QNode), true)
        | some k =>
          let r := filter_node_recursive k (thr_scale threshold alphaSq) alphaSq
          (some r.1, r.2)
      let p2 := match c2 with
        | none => ((none : Option QNode), true)
        | some k =>
          let r := filter_node_recursive k (thr_scale threshold alphaSq) alphaSq
          (some r.1, r.2)
      let p3 := match c3 with
        | none => ((none : Option QNode), true)
        | some k =>
          let r := filter_node_recursive k (thr_scale threshold alphaSq) alphaSq
          (some r.1, r.2)
      let all_children_uniform := p0.2 && p1.2 && p2.2 && p3.2
      if thr_le w threshold && all_children_uniform then
        (.mk m 0 true none none none none, true)
      else
        let newu := is_uniform_block (some (.mk m e u p0.1 p1.1 p2.1 p3.1))
        (.mk m e newu p0.1 p1.1 p2.1 p3.1, newu)
termination_by structural n => n

/-- The filtering of one child slot inside `filter_node_recursive`
(`if (node->children[i]) { ... }`): a null child leaves the
`all_children_uniform` accumulator untouched (`true` here). -/
def filter_child (c : Option QNode) (t : Threshold) (a : NNFrac) : Option QNode × Bool :=
  match c with
  | none => (none, true)
  | some k =>
    let r := filter_node_recursive k t a
    (some r.1, r.2)

theorem filter_node_recursive_mk (m e : Nat) (u : Bool) (c0 c1 c2 c3 : Option QNode)
    (t : Threshold) (a : NNFrac) :
    filter_node_recursive (.mk m e u c0 c1 c2 c3) t a =
      if c0.isNone && c1.isNone && c2.isNone && c3.isNone then
        (.mk m e u c0 c1 c2 c3, true)
      else
        let p0 := filter_child c0 (thr_scale t a) a
        let p1 := filter_child c1 (thr_scale t a) a
        let p2 := filter_child c2 (thr_scale t a) a
        let p3 := filter_child c3 (thr_scale t a) a
        if thr_le (vsq (.mk m e u c0 c1 c2 c3)) t && (p0.2 && p1.2 && p2.2 && p3.2) then
          (.mk m 0 true none none none none, true)
        else
          (.mk m e (is_uniform_block (some (.mk m e u p0.1 p1.1 p2.1 p3.1)))
            p0.1 p1.1 p2.1 p3.1,
           is_uniform_block (some (.mk m e u p0.1 p1.1 p2.1 p3.1))) := by
  cases c0 <;> cases c1 <;> cases c2 <;> cases c3 <;> rfl

/-- `apply_lossy_compression`: `alpha ≤ 1.0` is rejected with the tree left
untouched (`QTREE_ERROR_INVALID_PARAM`); otherwise compute the variance
statistics, form `t0 = median/max` (squared here; with no positive variance
this is `0.0f/0.0f = NaN`), and filter from the root with per-level factor
`alpha` (squared here). -/
def apply_lossy_compression (t : QTree) (alpha : NNFrac) : QTree :=
  if alpha.le (NNFrac.ofNat 1) then t
  else
    let stats := calculate_variance_stats t
    let t0 : Threshold :=
      if stats.max_variance.isZero then none
      else some (stats.median_variance.dvd stats.max_variance)
    { t with root := (filter_node_recursive t.root t0 (alpha.mul alpha)).1 }

instance : Inhabited QNode := ⟨.mk 0 0 false none none none none⟩

instance : DecidableEq QTree := fun a b =>
  decidable_of_iff (a.root = b.root ∧ a.n_levels = b.n_levels ∧ a.size = b.size) (by
    obtain ⟨ar, al, as'⟩ := a
    obtain ⟨br, bl, bs⟩ := b
    simp)

/-- The 8×8 test image behind the C5 and C8 counterexamples.  Quadrants (4×4
each): TL is four `[9,11,9,11]` blocks (block variance 1); TR four
`[10,10,10,11]` blocks (block variance 1/4); BR four constant blocks
`0,0,255,255` (collapsed at build, quadrant variance 16256.5); BL four
`[30,30,30,31]` blocks.  With `alpha = 12` the first filter pass promotes the
TR/BL blocks and marks TR and BL uniform via `is_uniform_block` *without
freeing their children*, and the recomputed statistics of the filtered tree
raise the threshold so that a second pass promotes the TL blocks too. -/
def pixList8 : List Nat :=
  [ 9, 11,  9, 11, 10, 10, 10, 10,
    9, 11,  9, 11, 10, 11, 10, 11,
    9, 11,  9, 11, 10, 10, 10, 10,
    9, 11,  9, 11, 10, 11, 10, 11,
   30, 30, 30, 30,  0,  0,  0,  0,
   30, 31, 30, 31,  0,  0,  0,  0,
   30, 30, 30, 30, 255, 255, 255, 255,
   30, 31, 30, 31, 255, 255, 255, 255]

def pix8 : Nat → Nat := fun i => pixList8.getD i 0

/-! ## C5: uniform nodes after the lossy filter -/

/-- **C5** (counterexample).  After `apply_lossy_compression` with
`alpha = 12` on the 8×8 image above, the TR child of the root has `u = 1`
and still owns its four children — the claim's "all four child slots empty"
fails (the `else` branch of `filter_node_recursive` recomputes `u` via
`is_uniform_block` but never frees the children). -/
theorem C5_uniform_node_with_children :
    ((apply_lossy_compression (qtree_build pix8 (2 ^ 3)) ⟨12, 1⟩).root.c1.getD default).u
        = true ∧
    ((apply_lossy_compression (qtree_build pix8 (2 ^ 3)) ⟨12, 1⟩).root.c1.getD default).c0
        ≠ none ∧
    (apply_lossy_compression (qtree_build pix8 (2 ^ 3)) ⟨12, 1⟩).root.c1 ≠ none := by
  rw [qtree_build_pow2]
  exact ⟨by decide, by decide, by decide⟩

theorem is_uniform_block_e0 {q : QNode} (h : is_uniform_block (some q) = true) :
    q.e = 0 := by
  unfold is_uniform_block at h
  dsimp only at h
  by_cases he : (q.e != 0) = true
  · rw [if_pos he] at h
    cases h
  · simpa using he

/-- Every node of a built subtree that is uniform has residual zero
(`calculate_node_properties` only sets `u` when `error_val == 0`, leaves get
`e = 0`). -/
theorem build_UE0 (pixels : Nat → Nat) (size : Nat) :
    ∀ level row col, ∀ x ∈ nodesOf (some (build_recursive pixels size level row col)),
      x.u = true → x.e = 0 := by
  intro level
  induction level with
  | zero =>
    intro row col x hx _
    simp only [build_recursive] at hx
    rw [nodesOf_some] at hx
    simp only [nodesOf_none, List.append_nil, List.nil_append, List.mem_singleton] at hx
    subst hx
    rfl
  | succ level ih =>
    intro row col x hx hu
    simp only [build_recursive] at hx
    set k0 := build_recursive pixels size level row col with hk0
    set k1 := build_recursive pixels size level row (col + 2 ^ level) with hk1
    set k2 := build_recursive pixels size level (row + 2 ^ level) (col + 2 ^ level) with hk2
    set k3 := build_recursive pixels size level (row + 2 ^ level) col with hk3
    by_cases huni : (calculate_node_properties k0 k1 k2 k3).2.2 = true
    · rw [if_pos huni] at hx
      rw [nodesOf_some] at hx
      simp only [nodesOf_none, List.append_nil, List.nil_append, List.mem_singleton] at hx
      subst hx
      simp only [calculate_node_properties, Bool.and_eq_true, beq_iff_eq] at huni
      simp only [QNode.e_mk, calculate_node_properties]
      omega
    · rw [if_neg huni] at hx
      rw [nodesOf_some] at hx
      simp only [List.mem_cons, List.mem_append] at hx
      rcases hx with rfl | (((h | h) | h) | h)
      · simp only [QNode.u_mk] at hu
        cases hu
      · exact ih row col x h hu
      · exact ih row (col + 2 ^ level) x h hu
      · exact ih (row + 2 ^ level) (col + 2 ^ level) x h hu
      · exact ih (row + 2 ^ level) col x h hu

theorem mem_nodesOf_c0 {x k : QNode} {m e : Nat} {u : Bool} {c1 c2 c3 : Option QNode}
    (hk : x ∈ nodesOf (some k)) : x ∈ nodesOf (some (.mk m e u (some k) c1 c2 c3)) := by
  rw [nodesOf_some]
  exact List.mem_cons_of_mem _
    (List.mem_append_left _ (List.mem_append_left _ (List.mem_append_left _ hk)))

theorem mem_nodesOf_c1 {x k : QNode} {m e : Nat} {u : Bool} {c0 c2 c3 : Option QNode}
    (hk : x ∈ nodesOf (some k)) : x ∈ nodesOf (some (.mk m e u c0 (some k) c2 c3)) := by
  rw [nodesOf_some]
  exact List.mem_cons_of_mem _
    (List.mem_append_left _ (List.mem_append_left _ (List.mem_append_right _ hk)))

theorem mem_nodesOf_c2 {x k : QNode} {m e : Nat} {u : Bool} {c0 c1 c3 : Option QNode}
    (hk : x ∈ nodesOf (some k)) : x ∈ nodesOf (some (.mk m e u c0 c1 (some k) c3)) := by
  rw [nodesOf_some]
  exact List.mem_cons_of_mem _
    (List.mem_append_left _ (List.mem_append_right _ hk))

theorem mem_nodesOf_c3 {x k : QNode} {m e : Nat} {u : Bool} {c0 c1 c2 : Option QNode}
    (hk : x ∈ nodesOf (some k)) : x ∈ nodesOf (some (.mk m e u c0 c1 c2 (some k))) := by
  rw [nodesOf_some]
  exact List.mem_cons_of_mem _ (List.mem_append_right _ hk)

/-- The filter preserves "uniform implies zero residual" over the whole tree:
promotion writes `e = 0` explicitly, and the `else` branch can only set
`u = 1` through `is_uniform_block`, whose first test requires `e = 0`. -/
theorem filter_UE0 : ∀ n : QNode, ∀ (t : Threshold) (a : NNFrac),
    (∀ x ∈ nodesOf (some n), x.u = true → x.e = 0) →
    ∀ x ∈ nodesOf (some (filter_node_recursive n t a).1), x.u = true → x.e = 0 := by
  refine qnode_strong_ind ?_
  intro n ih t a hin x hx hu
  obtain ⟨m, e, u, c0, c1, c2, c3⟩ := n
  rw [filter_node_recursive_mk] at hx
  by_cases hleaf : (c0.isNone && c1.isNone && c2.isNone && c3.isNone) = true
  · rw [if_pos hleaf] at hx
    exact hin x hx hu
  · rw [if_neg hleaf] at hx
    dsimp only at hx
    split at hx
    · rw [nodesOf_some] at hx
      simp only [nodesOf_none, List.append_nil, List.nil_append, List.mem_singleton] at hx
      subst hx
      rfl
    · rw [nodesOf_some] at hx
      simp only [List.mem_cons, List.mem_append] at hx
      rcases hx with rfl | (((h | h) | h) | h)
      · simp only [QNode.u_mk] at hu
        simpa using is_uniform_block_e0 hu
      · cases hc : c0 with
        | none => rw [hc] at h; simp [filter_child] at h
        | some k =>
          rw [hc] at h
          simp only [filter_child] at h
          refine ih k (by rw [hc]; exact osize_c0_lt m e u (some k) c1 c2 c3) _ a
            (fun y hy => hin y (by rw [hc]; exact mem_nodesOf_c0 hy)) x h hu
      · cases hc : c1 with
        | none => rw [hc] at h; simp [filter_child] at h
        | some k =>
          rw [hc] at h
          simp only [filter_child] at h
          refine ih k (by rw [hc]; exact osize_c1_lt m e u c0 (some k) c2 c3) _ a
            (fun y hy => hin y (by rw [hc]; exact mem_nodesOf_c1 hy)) x h hu
      · cases hc : c2 with
        | none => rw [hc] at h; simp [filter_child] at h
        | some k =>
          rw [hc] at h
          simp only [filter_child] at h
          refine ih k (by rw [hc]; exact osize_c2_lt m e u c0 c1 (some k) c3) _ a
            (fun y hy => hin y (by rw [hc]; exact mem_nodesOf_c2 hy)) x h hu
      · cases hc : c3 with
        | none => rw [hc] at h; simp [filter_child] at h
        | some k =>
          rw [hc] at h
          simp only [filter_child] at h
          refine ih k (by rw [hc]; exact osize_c3_lt m e u c0 c1 c2 (some k)) _ a
            (fun y hy => hin y (by rw [hc]; exact mem_nodesOf_c3 hy)) x h hu

/-- Rendering a uniform node fills its whole (clamped) block with `m`. -/
theorem extract_pixels_uniform {n : QNode} (hu : n.u = true)
    (b : Buf) (row col s T : Nat) :
    extract_pixels (some n) b row col s T = fill_block b n.m row col s T := by
  obtain ⟨m, e, u, c0, c1, c2, c3⟩ := n
  simp only [QNode.u_mk] at hu
  subst hu
  rw [extract_pixels_some]
  simp only [Bool.true_or]
  rfl

/-- **C5** (amended).  After `apply_lossy_compression` on a built tree, every
node with `u = 1` has `e = 0`, and rendering its region writes the constant
`m` over the whole (clamped) block — but its four child slots need *not* be
empty (see the counterexample): the filter's `else` branch can set `u = 1`
via `is_uniform_block` while retaining the children. -/
theorem C5_uniform_nodes_e0_and_render_const (L : Nat) (pixels : Nat → Nat)
    (alpha : NNFrac) :
    ∀ n ∈ nodesOf (some (apply_lossy_compression (qtree_build pixels (2 ^ L)) alpha).root),
      n.u = true →
      n.e = 0 ∧
      ∀ b row col s T, extract_pixels (some n) b row col s T =
        fill_block b n.m row col s T := by
  intro n hmem hu
  refine ⟨?_, fun b row col s T => extract_pixels_uniform hu b row col s T⟩
  have hbase := build_UE0 pixels (2 ^ L) (Nat.log2 (2 ^ L)) 0 0
  unfold apply_lossy_compression at hmem
  split at hmem
  · exact hbase n hmem hu
  · exact filter_UE0 _ _ _ hbase n hmem hu

/-- Witness for C5 (amended): the `u = 1` TR node of the filtered 8×8 tree
has `e = 0` and renders constant. -/
theorem C5_uniform_nodes_e0_and_render_const_witness :
    ((apply_lossy_compression (qtree_build pix8 (2 ^ 3)) ⟨12, 1⟩).root.c1.getD default ∈
      nodesOf (some (apply_lossy_compression (qtree_build pix8 (2 ^ 3)) ⟨12, 1⟩).root)) ∧
    ((apply_lossy_compression (qtree_build pix8 (2 ^ 3)) ⟨12, 1⟩).root.c1.getD default).u
      = true ∧
    ((apply_lossy_compression (qtree_build pix8 (2 ^ 3)) ⟨12, 1⟩).root.c1.getD default).e
      = 0 :=
  ⟨by rw [qtree_build_pow2]; decide,
   by rw [qtree_build_pow2]; decide,
   (C5_uniform_nodes_e0_and_render_const 3 pix8 ⟨12, 1⟩ _
      (by rw [qtree_build_pow2]; decide) (by rw [qtree_build_pow2]; decide)).1⟩

/-! ## C8: the lossy filter is not idempotent -/

/-- **C8** (counterexample).  On the 8×8 image above with `alpha = 12`, a
second `apply_lossy_compression` changes the tree again (the variance
statistics are recomputed on the filtered tree, raising the initial
threshold from `(1/4)/16256.5` to `1/16256.5`, which promotes the TL
quadrant's blocks on the second pass). -/
theorem C8_second_application_changes_tree :
    apply_lossy_compression
        (apply_lossy_compression (qtree_build pix8 (2 ^ 3)) ⟨12, 1⟩) ⟨12, 1⟩ ≠
      apply_lossy_compression (qtree_build pix8 (2 ^ 3)) ⟨12, 1⟩ := by
  rw [qtree_build_pow2]
  decide

/-- The converse of the fixpoint direction fails: on the 2×2 image
`[100, 100, 100, 101]` with `alpha = 2`, the first application changes the
tree (it collapses the root to a uniform leaf) while a second application
then changes nothing — so being unchanged by the second application does not
imply the first was a no-op. -/
theorem filter_changes_then_stabilizes :
    apply_lossy_compression
        (qtree_build (fun i => [100, 100, 100, 101].getD i 0) (2 ^ 1)) ⟨2, 1⟩ ≠
      qtree_build (fun i => [100, 100, 100, 101].getD i 0) (2 ^ 1) ∧
    apply_lossy_compression
        (apply_lossy_compression
          (qtree_build (fun i => [100, 100, 100, 101].getD i 0) (2 ^ 1)) ⟨2, 1⟩) ⟨2, 1⟩ =
      apply_lossy_compression
        (qtree_build (fun i => [100, 100, 100, 101].getD i 0) (2 ^ 1)) ⟨2, 1⟩ := by
  rw [qtree_build_pow2]
  exact ⟨by decide, by decide⟩

/-- **C8** (amended).  The lossy filter is not idempotent in general; what
holds is one direction only: (1) a second application changes nothing
whenever the first one already changed nothing, and (2) a tree whose root is
a leaf (in particular a fully collapsed uniform tree) is such a fixpoint.
The converse of (1) is false — see `filter_changes_then_stabilizes` above. -/
theorem C8_fixpoints_are_stable :
    (∀ (t : QTree) (alpha : NNFrac), apply_lossy_compression t alpha = t →
      apply_lossy_compression (apply_lossy_compression t alpha) alpha =
        apply_lossy_compression t alpha) ∧
    (∀ (m e : Nat) (u : Bool) (n_levels size : Nat) (alpha : NNFrac),
      apply_lossy_compression ⟨.mk m e u none none none none, n_levels, size⟩ alpha =
        ⟨.mk m e u none none none none, n_levels, size⟩) := by
  constructor
  · intro t alpha h
    rw [h]
    exact h
  · intro m e u n_levels size alpha
    unfold apply_lossy_compression
    split
    · rfl
    · simp [calculate_variance_stats, collect_variances, vsq, NNFrac.pos,
        filter_node_recursive]

/-- Witness for C8 (amended): a concrete fixpoint — the collapsed uniform
2×2 build — on which the second application indeed changes nothing. -/
theorem C8_fixpoints_are_stable_witness :
    apply_lossy_compression
        { root := QNode.mk 7 0 true none none none none, n_levels := 1, size := 2 }
        ⟨2, 1⟩ =
      { root := QNode.mk 7 0 true none none none none, n_levels := 1, size := 2 } ∧
    apply_lossy_compression
        (apply_lossy_compression
          { root := QNode.mk 7 0 true none none none none, n_levels := 1, size := 2 }
          ⟨2, 1⟩) ⟨2, 1⟩ =
      apply_lossy_compression
        { root := QNode.mk 7 0 true none none none none, n_levels := 1, size := 2 }
        ⟨2, 1⟩ :=
  ⟨by decide,
   C8_fixpoints_are_stable.1
     { root := QNode.mk 7 0 true none none none none, n_levels := 1, size := 2 }
     ⟨2, 1⟩ (by decide)⟩

/-! ## Bit-exact correspondence of writer and reader -/

/-- The value of an MSB-first bit string. -/
def bitVal (bs : List Nat) : Nat := bs.foldl (fun a b => 2 * a + b) 0

/-- The 8 bits of one output byte, MSB first. -/
def byteBits (b : Nat) : List Nat := bitsMSB b 8

theorem bitsMSB_length (v n : Nat) : (bitsMSB v n).length = n := by
  simp [bitsMSB]

theorem bitsMSB_le_one {v n : Nat} : ∀ b ∈ bitsMSB v n, b ≤ 1 := by
  intro b hb
  simp only [bitsMSB, List.mem_map] at hb
  obtain ⟨i, _, rfl⟩ := hb
  rw [Nat.and_one_is_mod]
  omega

theorem bitsMSB_succ (v n : Nat) : bitsMSB v (n + 1) = bitsMSB (v / 2) n ++ [v &&& 1] := by
  unfold bitsMSB
  rw [List.range_succ, List.map_append]
  congr 1
  · apply List.map_congr_left
    intro i hi
    rw [List.mem_range] at hi
    have h1 : n + 1 - 1 - i = 1 + (n - 1 - i) := by omega
    rw [h1, Nat.shiftRight_add, Nat.shiftRight_one]
  · simp only [List.map_cons, List.map_nil]
    have h0 : n + 1 - 1 - n = 0 := by omega
    rw [h0, Nat.shiftRight_zero]

theorem bitVal_from (bs : List Nat) : ∀ a : Nat,
    bs.foldl (fun x y => 2 * x + y) a = a * 2 ^ bs.length + bitVal bs := by
  induction bs with
  | nil => intro a; simp [bitVal]
  | cons b bs ih =>
    intro a
    have h1 : bitVal (b :: bs) = b * 2 ^ bs.length + bitVal bs := by
      show (b :: bs).foldl (fun x y => 2 * x + y) 0 = _
      rw [List.foldl_cons, ih]
      ring_nf
    rw [List.foldl_cons, ih, h1, List.length_cons]
    ring

theorem bitVal_cons (b : Nat) (bs : List Nat) :
    bitVal (b :: bs) = b * 2 ^ bs.length + bitVal bs := by
  show (b :: bs).foldl (fun x y => 2 * x + y) 0 = _
  rw [List.foldl_cons, bitVal_from]
  ring_nf

theorem bitVal_snoc (bs : List Nat) (b : Nat) :
    bitVal (bs ++ [b]) = 2 * bitVal bs + b := by
  simp [bitVal, List.foldl_append]

theorem bitVal_append (xs ys : List Nat) :
    bitVal (xs ++ ys) = bitVal xs * 2 ^ ys.length + bitVal ys := by
  show (xs ++ ys).foldl (fun x y => 2 * x + y) 0 = _
  rw [List.foldl_append, bitVal_from]
  rfl

theorem bitVal_lt (bs : List Nat) (h : ∀ b ∈ bs, b ≤ 1) : bitVal bs < 2 ^ bs.length := by
  induction bs with
  | nil => simp [bitVal]
  | cons b bs ih =>
    rw [bitVal_cons, List.length_cons]
    have hb : b ≤ 1 := h b (List.mem_cons_self _ _)
    have hrec := ih (fun x hx => h x (List.mem_cons_of_mem _ hx))
    have hmul : b * 2 ^ bs.length ≤ 1 * 2 ^ bs.length :=
      Nat.mul_le_mul_right _ hb
    rw [one_mul] at hmul
    have hp : (2:Nat) ^ (bs.length + 1) = 2 * 2 ^ bs.length := by
      rw [pow_succ]; ring
    omega

theorem mod_two_pow_succ (v n : Nat) : v % 2 ^ (n + 1) = 2 * (v / 2 % 2 ^ n) + v % 2 := by
  have hq : v / 2 = 2 ^ n * (v / 2 / 2 ^ n) + v / 2 % 2 ^ n := (Nat.div_add_mod _ _).symm
  have hv : v = 2 * (v / 2) + v % 2 := by omega
  have hrw : v = (2 * 2 ^ n) * (v / 2 / 2 ^ n) + (2 * (v / 2 % 2 ^ n) + v % 2) := by
    conv_lhs => rw [hv, hq]
    ring
  have hlt : 2 * (v / 2 % 2 ^ n) + v % 2 < 2 * 2 ^ n := by
    have h1 : v / 2 % 2 ^ n < 2 ^ n := Nat.mod_lt _ (Nat.pos_pow_of_pos _ (by norm_num))
    have h2 : v % 2 < 2 := Nat.mod_lt _ (by norm_num)
    omega
  calc v % 2 ^ (n + 1) = v % (2 * 2 ^ n) := by rw [pow_succ]; ring_nf
    _ = ((2 * 2 ^ n) * (v / 2 / 2 ^ n) + (2 * (v / 2 % 2 ^ n) + v % 2)) % (2 * 2 ^ n) := by
          rw [← hrw]
    _ = (2 * (v / 2 % 2 ^ n) + v % 2) % (2 * 2 ^ n) := by rw [Nat.mul_add_mod]
    _ = 2 * (v / 2 % 2 ^ n) + v % 2 := Nat.mod_eq_of_lt hlt

theorem bitVal_bitsMSB (n : Nat) : ∀ v, bitVal (bitsMSB v n) = v % 2 ^ n := by
  induction n with
  | zero => intro v; simp [bitsMSB, bitVal, Nat.mod_one]
  | succ n ih =>
    intro v
    rw [bitsMSB_succ, bitVal_snoc, ih, Nat.and_one_is_mod, mod_two_pow_succ]

theorem bitsMSB_bitVal (bs : List Nat) (h : ∀ b ∈ bs, b ≤ 1) :
    bitsMSB (bitVal bs) bs.length = bs := by
  induction bs using List.reverseRecOn with
  | nil => rfl
  | append_singleton xs b ih =>
    have hb : b ≤ 1 := h b (by simp)
    have hxs : ∀ x ∈ xs, x ≤ 1 := fun x hx => h x (by simp [hx])
    rw [bitVal_snoc, List.length_append, List.length_singleton, bitsMSB_succ]
    have h1 : (2 * bitVal xs + b) / 2 = bitVal xs := by omega
    have h2 : (2 * bitVal xs + b) &&& 1 = b := by rw [Nat.and_one_is_mod]; omega
    rw [h1, h2, ih hxs]

/-- Packing an aligned buffer with one more bit below it. -/
theorem or_bit_aligned (t b k : Nat) (hb : b ≤ 1) :
    (t * 2 ^ (k + 1)) ||| ((b &&& 1) <<< k) = (2 * t + b) * 2 ^ k := by
  have hb1 : b &&& 1 = b := by rw [Nat.and_one_is_mod]; omega
  rw [hb1, Nat.shiftLeft_eq]
  have hlt : b * 2 ^ k < 2 ^ (k + 1) := by
    calc b * 2 ^ k ≤ 1 * 2 ^ k := Nat.mul_le_mul_right _ hb
      _ = 2 ^ k := one_mul _
      _ < 2 ^ (k + 1) := Nat.pow_lt_pow_succ (by norm_num)
  have key := Nat.mul_add_lt_is_or hlt t
  rw [mul_comm t (2 ^ (k + 1)), ← key, pow_succ]
  ring

/-- The writer invariant: after writing the bits `bs` onto a state whose
pending top-of-buffer bits are `pending`, the emitted bytes followed by the
new pending bits spell out the old stream followed by `bs`. -/
theorem write_bit_list_spec : ∀ (bs : List Nat) (s : CompressState) (pending : List Nat),
    (∀ x ∈ bs, x ≤ 1) → (∀ x ∈ pending, x ≤ 1) →
    s.bit_position = pending.length → pending.length < 8 →
    s.buffer = bitVal pending * 2 ^ (8 - pending.length) →
    ∃ pending' : List Nat,
      (∀ x ∈ pending', x ≤ 1) ∧
      (write_bit_list s bs).bit_position = pending'.length ∧
      pending'.length < 8 ∧
      (write_bit_list s bs).buffer = bitVal pending' * 2 ^ (8 - pending'.length) ∧
      ((write_bit_list s bs).bytes_written).flatMap byteBits ++ pending' =
        (s.bytes_written).flatMap byteBits ++ (pending ++ bs) := by
  intro bs
  induction bs with
  | nil =>
    intro s pending _ hpall hlen hlt hbuf
    exact ⟨pending, hpall, hlen, hlt, hbuf, by simp [write_bit_list_nil]⟩
  | cons b bs ih =>
    intro s pending hball hpall hlen hlt hbuf
    have hb : b ≤ 1 := hball b (List.mem_cons_self _ _)
    have hbs : ∀ x ∈ bs, x ≤ 1 := fun x hx => hball x (List.mem_cons_of_mem _ hx)
    have hpb : ∀ x ∈ pending ++ [b], x ≤ 1 := by
      intro x hx
      rcases List.mem_append.1 hx with h | h
      · exact hpall x h
      · simp at h; omega
    have hstep : write_bit_list s (b :: bs) = write_bit_list (compress_write_bit s b) bs := rfl
    rw [hstep]
    by_cases h7 : pending.length = 7
    · -- the eighth bit: a full byte is emitted
      have hcond : s.bit_position + 1 = 8 := by omega
      have hval : s.buffer ||| ((b &&& 1) <<< (7 - s.bit_position)) =
          bitVal (pending ++ [b]) := by
        rw [hlen, h7, hbuf, h7]
        have h80 : (8 : Nat) - 7 = 0 + 1 := rfl
        have h70 : (7 : Nat) - 7 = 0 := rfl
        rw [h80, h70, or_bit_aligned _ _ _ hb, bitVal_snoc]
        ring
      have hred : compress_write_bit s b =
          { buffer := 0, bit_position := 0,
            bytes_written := s.bytes_written ++ [bitVal (pending ++ [b])],
            total_bits := s.total_bits + 1 } := by
        simp only [compress_write_bit]
        rw [if_pos hcond, hval]
      rw [hred]
      obtain ⟨p', h1, h2, h3, h4, h5⟩ :=
        ih { buffer := 0, bit_position := 0,
             bytes_written := s.bytes_written ++ [bitVal (pending ++ [b])],
             total_bits := s.total_bits + 1 } [] hbs (by simp) rfl (by norm_num)
          (by simp [bitVal])
      refine ⟨p', h1, h2, h3, h4, ?_⟩
      rw [h5]
      have hbb : byteBits (bitVal (pending ++ [b])) = pending ++ [b] := by
        have hlen8 : (pending ++ [b]).length = 8 := by
          rw [List.length_append, h7]; rfl
        have := bitsMSB_bitVal (pending ++ [b]) hpb
        rw [hlen8] at this
        exact this
      simp [List.flatMap_append, hbb, List.append_assoc]
    · -- still filling the byte
      have hcond : ¬ (s.bit_position + 1 = 8) := by omega
      have hval : s.buffer ||| ((b &&& 1) <<< (7 - s.bit_position)) =
          bitVal (pending ++ [b]) * 2 ^ (8 - (pending.length + 1)) := by
        rw [hlen, hbuf]
        have h8 : 8 - pending.length = (7 - pending.length) + 1 := by omega
        have h8' : 8 - (pending.length + 1) = 7 - pending.length := by omega
        rw [h8, h8', or_bit_aligned _ _ _ hb, bitVal_snoc]
      have hred : compress_write_bit s b =
          { buffer := bitVal (pending ++ [b]) * 2 ^ (8 - (pending.length + 1)),
            bit_position := pending.length + 1,
            bytes_written := s.bytes_written,
            total_bits := s.total_bits + 1 } := by
        simp only [compress_write_bit]
        rw [if_neg hcond, hval, hlen]
      rw [hred]
      obtain ⟨p', h1, h2, h3, h4, h5⟩ :=
        ih { buffer := bitVal (pending ++ [b]) * 2 ^ (8 - (pending.length + 1)),
             bit_position := pending.length + 1,
             bytes_written := s.bytes_written,
             total_bits := s.total_bits + 1 } (pending ++ [b]) hbs hpb
          (by simp) (by simp; omega)
          (by simp)
      refine ⟨p', h1, h2, h3, h4, ?_⟩
      rw [h5]
      simp

/-- Flushing pads the pending bits with zeroes to a byte boundary. -/
theorem compress_flush_spec (s : CompressState) (pending : List Nat)
    (hpall : ∀ x ∈ pending, x ≤ 1) (hlen : s.bit_position = pending.length)
    (hlt : pending.length < 8)
    (hbuf : s.buffer = bitVal pending * 2 ^ (8 - pending.length)) :
    ∃ zs : List Nat,
      ((compress_flush s).bytes_written).flatMap byteBits =
        (s.bytes_written).flatMap byteBits ++ pending ++ zs := by
  unfold compress_flush
  by_cases h0 : s.bit_position = 0
  · rw [if_pos h0]
    have : pending = [] := List.eq_nil_of_length_eq_zero (by omega)
    exact ⟨[], by simp [this]⟩
  · rw [if_neg h0]
    refine ⟨List.replicate (8 - pending.length) 0, ?_⟩
    simp only [List.flatMap_append, List.flatMap_cons, List.flatMap_nil, List.append_nil]
    have hzv : bitVal (List.replicate (8 - pending.length) 0) = 0 := by
      generalize 8 - pending.length = k
      induction k with
      | zero => rfl
      | succ k ihk => rw [List.replicate_succ, bitVal_cons, ihk]; ring
    have hfull : bitVal (pending ++ List.replicate (8 - pending.length) 0) =
        bitVal pending * 2 ^ (8 - pending.length) := by
      rw [bitVal_append, hzv, List.length_replicate]
      ring
    have hall : ∀ x ∈ pending ++ List.replicate (8 - pending.length) 0, x ≤ 1 := by
      intro x hx
      rcases List.mem_append.1 hx with h | h
      · exact hpall x h
      · rw [List.eq_of_mem_replicate h]; omega
    have hlen8 : (pending ++ List.replicate (8 - pending.length) 0).length = 8 := by
      rw [List.length_append, List.length_replicate]; omega
    have hbb : byteBits s.buffer = pending ++ List.replicate (8 - pending.length) 0 := by
      rw [hbuf, ← hfull]
      have := bitsMSB_bitVal (pending ++ List.replicate (8 - pending.length) 0) hall
      rw [hlen8] at this
      exact this
    rw [hbb, List.append_assoc]

/-- The flushed byte stream of the writer spells out the written bits,
followed by some padding. -/
theorem compress_stream_spec (bs : List Nat) (h : ∀ x ∈ bs, x ≤ 1) :
    ∃ zs, ((compress_flush (write_bit_list compress_init bs)).bytes_written).flatMap byteBits
      = bs ++ zs := by
  obtain ⟨p', hp1, hp2, hp3, hp4, hp5⟩ :=
    write_bit_list_spec bs compress_init [] h (by simp) rfl (by norm_num)
      (by simp [compress_init, bitVal])
  obtain ⟨zs, hz⟩ := compress_flush_spec _ p' hp1 hp2 hp3 hp4
  refine ⟨zs, ?_⟩
  rw [hz]
  have hc : (write_bit_list compress_init bs).bytes_written.flatMap byteBits ++ p' = bs := by
    rw [hp5]; simp [compress_init]
  rw [hc]

/-- The bit stream still ahead of a reader: the unread bits of the current
byte, then the bits of the remaining input bytes. -/
def rbits (r : BitReader) : List Nat :=
  (byteBits r.buffer).drop r.position ++ r.input.flatMap byteBits

/-- A healthy reader: within the current byte, no EOF, no latched error. -/
def RInv (r : BitReader) : Prop := r.position ≤ 8 ∧ r.eof = false ∧ r.has_error = false

theorem byteBits_expand (v : Nat) :
    byteBits v = [(v >>> 7) &&& 1, (v >>> 6) &&& 1, (v >>> 5) &&& 1, (v >>> 4) &&& 1,
      (v >>> 3) &&& 1, (v >>> 2) &&& 1, (v >>> 1) &&& 1, (v >>> 0) &&& 1] := rfl

theorem drop_byteBits {p : Nat} (hp : p ≤ 7) (v : Nat) :
    (byteBits v).drop p = ((v >>> (7 - p)) &&& 1) :: (byteBits v).drop (p + 1) := by
  interval_cases p <;> rfl

theorem read_bit_spec {r : BitReader} {b : Nat} {rest : List Nat}
    (hr : RInv r) (hb : rbits r = b :: rest) :
    (read_bit r).1 = b ∧ RInv (read_bit r).2 ∧ rbits (read_bit r).2 = rest := by
  obtain ⟨hpos, heof, herr⟩ := hr
  unfold read_bit
  rw [heof, herr]
  simp only [Bool.or_self, Bool.false_eq_true, if_false]
  by_cases h8 : r.position = 8
  · rw [if_pos (show (r.position == 8) = true by simp [h8])]
    have hdrop : (byteBits r.buffer).drop r.position = [] := by
      rw [h8, show (8:Nat) = (byteBits r.buffer).length from (bitsMSB_length _ _).symm,
        List.drop_length]
    unfold rbits at hb
    rw [hdrop, List.nil_append] at hb
    cases hinp : r.input with
    | nil => rw [hinp] at hb; simp at hb
    | cons a as =>
      rw [hinp] at hb
      rw [List.flatMap_cons, byteBits_expand] at hb
      simp only [List.cons_append] at hb
      injection hb with h1 h2
      refine ⟨h1, ⟨by norm_num, rfl, rfl⟩, ?_⟩
      show (byteBits a).drop 1 ++ as.flatMap byteBits = rest
      rw [byteBits_expand]
      simp only [List.drop_succ_cons, List.drop_zero, List.cons_append]
      exact h2
  · rw [if_neg (show ¬ ((r.position == 8) = true) by simp [h8])]
    dsimp only
    unfold rbits at hb
    rw [drop_byteBits (show r.position ≤ 7 by omega)] at hb
    simp only [List.cons_append] at hb
    injection hb with h1 h2
    exact ⟨h1, ⟨by show r.position + 1 ≤ 8; omega, rfl, rfl⟩, h2⟩

theorem read_bits_go_spec : ∀ (bs : List Nat) (value : Nat) (r : BitReader) (rest : List Nat),
    RInv r → rbits r = bs ++ rest → (∀ x ∈ bs, x ≤ 1) →
    value * 2 ^ bs.length + bitVal bs < 256 →
    (read_bits_go bs.length value r).1 = value * 2 ^ bs.length + bitVal bs ∧
    RInv (read_bits_go bs.length value r).2 ∧
    rbits (read_bits_go bs.length value r).2 = rest := by
  intro bs
  induction bs with
  | nil =>
    intro value r rest hr hsplit _ _
    refine ⟨?_, hr, by simpa using hsplit⟩
    simp [read_bits_go, bitVal]
  | cons b bs ih =>
    intro value r rest hr hsplit hall hbound
    have hb : b ≤ 1 := hall b (List.mem_cons_self _ _)
    have hbs : ∀ x ∈ bs, x ≤ 1 := fun x hx => hall x (List.mem_cons_of_mem _ hx)
    rw [List.cons_append] at hsplit
    obtain ⟨h1, hr1, hrb1⟩ := read_bit_spec hr hsplit
    obtain ⟨hp1, he1, herr1⟩ := hr1
    have hbnd2 : (2 * value + b) * 2 ^ bs.length + bitVal bs =
        value * 2 ^ (bs.length + 1) + bitVal (b :: bs) := by
      rw [bitVal_cons]; ring
    have hstep : 2 * value + b ≤ value * 2 ^ (bs.length + 1) + bitVal (b :: bs) := by
      have e1 : value * 2 ^ (bs.length + 1) = (2 * value) * 2 ^ bs.length := by ring
      have e2 : bitVal (b :: bs) = b * 2 ^ bs.length + bitVal bs := bitVal_cons _ _
      have l1 : 2 * value ≤ (2 * value) * 2 ^ bs.length :=
        Nat.le_mul_of_pos_right _ (Nat.pos_pow_of_pos _ (by norm_num))
      have l2 : b ≤ b * 2 ^ bs.length :=
        Nat.le_mul_of_pos_right _ (Nat.pos_pow_of_pos _ (by norm_num))
      rw [e1, e2]
      exact Nat.add_le_add l1 (le_trans l2 (Nat.le_add_right _ _))
    have hv1 : ((value <<< 1) ||| (read_bit r).1) % 256 = 2 * value + b := by
      rw [h1, Nat.shiftLeft_eq, pow_one]
      have hor := Nat.mul_add_lt_is_or (b := b) (i := 1) (by omega) value
      rw [show value * 2 = 2 ^ 1 * value by ring, ← hor]
      have : 2 ^ 1 * value + b = 2 * value + b := by ring
      rw [this]
      exact Nat.mod_eq_of_lt (lt_of_le_of_lt hstep hbound)
    obtain ⟨g1, g2, g3⟩ := ih (2 * value + b) (read_bit r).2 rest ⟨hp1, he1, herr1⟩ hrb1 hbs
      (by rw [hbnd2]; exact hbound)
    rw [List.length_cons]
    simp only [read_bits_go, he1, Bool.false_and, Bool.false_eq_true, if_false, hv1]
    exact ⟨g1.trans hbnd2, g2, g3⟩

theorem read_bits_spec {r : BitReader} {bs rest : List Nat} (hr : RInv r)
    (hsplit : rbits r = bs ++ rest) (hall : ∀ x ∈ bs, x ≤ 1) (hn : bs.length ≤ 8) :
    (read_bits r bs.length).1 = bitVal bs ∧ RInv (read_bits r bs.length).2 ∧
    rbits (read_bits r bs.length).2 = rest := by
  obtain ⟨hpos, heof, herr⟩ := hr
  unfold read_bits
  rw [heof, herr]
  have hgt : ¬ (bs.length > 8) := by omega
  rw [if_neg (by simp [hgt])]
  have hbound : 0 * 2 ^ bs.length + bitVal bs < 256 := by
    have h1 := bitVal_lt bs hall
    have h2 : (2:Nat) ^ bs.length ≤ 256 := by
      calc (2:Nat) ^ bs.length ≤ 2 ^ 8 := Nat.pow_le_pow_right (by norm_num) hn
        _ = 256 := by norm_num
    omega
  obtain ⟨g1, g2, g3⟩ := read_bits_go_spec bs 0 r rest ⟨hpos, heof, herr⟩ hsplit hall hbound
  refine ⟨?_, g2, g3⟩
  rw [g1]
  ring

theorem read_bits_msb {r : BitReader} {v n : Nat} {rest : List Nat} (hr : RInv r)
    (hv : v < 2 ^ n) (hn : n ≤ 8) (hsplit : rbits r = bitsMSB v n ++ rest) :
    (read_bits r n).1 = v ∧ RInv (read_bits r n).2 ∧ rbits (read_bits r n).2 = rest := by
  have h := read_bits_spec hr hsplit bitsMSB_le_one (by rw [bitsMSB_length]; exact hn)
  rw [bitsMSB_length, bitVal_bitsMSB, Nat.mod_eq_of_lt hv] at h
  exact h

/-! ## The encoder's bit stream, pass by pass -/

/-- The decoder-side record of a visited node. -/
def recOf (p : QNode × Bool) : NodeRec := ⟨p.1.m, p.1.e, p.1.u⟩

/-- The four children of a node as visit pairs: quadrant order, the fourth
(BL) flagged as interpolated; a null child contributes nothing. -/
def childPairs (n : QNode) : List (QNode × Bool) :=
  visitedAt n.c0 false 0 ++ visitedAt n.c1 false 0 ++
  visitedAt n.c2 false 0 ++ visitedAt n.c3 true 0

/-- The bits one visited node contributes during pass `k` of an encode with
`n_levels` levels. -/
def bitsFor (n_levels k : Nat) (p : QNode × Bool) : List Nat :=
  write_node_bits p.1 (p.1.e == 0 && p.1.u && (k == n_levels)) p.2

/-- All bits of encoding pass `k`. -/
def passBits (n_levels : Nat) (root : QNode) (k : Nat) : List Nat :=
  (visitedAt (some root) false k).flatMap (bitsFor n_levels k)

theorem visitedAt_some_zero (n : QNode) (flag : Bool) :
    visitedAt (some n) flag 0 = [(n, flag)] := rfl

theorem visitedAt_some_succ (n : QNode) (flag : Bool) (d : Nat) :
    visitedAt (some n) flag (d + 1) =
      if n.u = false then
        visitedAt n.c0 false d ++ visitedAt n.c1 false d ++
        visitedAt n.c2 false d ++ visitedAt n.c3 true d
      else [] := rfl

/-- One visit level down: the next level's visit list gathers the children of
the non-uniform nodes of this level. -/
theorem visitedAt_succ : ∀ (d : Nat) (o : Option QNode) (flag : Bool),
    visitedAt o flag (d + 1) =
      (visitedAt o flag d).flatMap
        (fun p => if p.1.u = false then childPairs p.1 else []) := by
  intro d
  induction d with
  | zero =>
    intro o flag
    cases o with
    | none => rfl
    | some n =>
      rw [visitedAt_some_succ n flag 0, visitedAt_some_zero]
      simp only [List.flatMap_cons, List.flatMap_nil, List.append_nil]
      rfl
  | succ d ih =>
    intro o flag
    cases o with
    | none => rfl
    | some n =>
      rw [visitedAt_some_succ n flag (d + 1), visitedAt_some_succ n flag d]
      by_cases hu : n.u = false
      · rw [if_pos hu, if_pos hu]
        rw [ih n.c0 false, ih n.c1 false, ih n.c2 false, ih n.c3 true]
        simp [List.flatMap_append]
      · rw [if_neg hu, if_neg hu]
        rfl

/-- Every node visited `d` levels below a well-formed node is well-formed
with `d` fewer levels. -/
theorem visitedAt_WF : ∀ (d l : Nat) (n : QNode) (flag : Bool), WF l n →
    ∀ p ∈ visitedAt (some n) flag d, WF (l - d) p.1 := by
  intro d
  induction d with
  | zero =>
    intro l n flag hn p hp
    rw [visitedAt_some_zero, List.mem_singleton] at hp
    subst hp
    rw [Nat.sub_zero]
    exact hn
  | succ d ih =>
    intro l n flag hn p hp
    rw [visitedAt_some_succ] at hp
    by_cases hu : n.u = false
    · rw [if_pos hu] at hp
      cases l with
      | zero => exact absurd hn.2.2.1 (by rw [hu]; simp)
      | succ l' =>
        rcases hn.2.2 with ⟨hut, _⟩ | ⟨_, k0, k1, k2, k3, h0, h1, h2, h3, w0, w1, w2, w3, _⟩
        · exact absurd hut (by rw [hu]; simp)
        · rw [h0, h1, h2, h3] at hp
          rw [Nat.succ_sub_succ]
          rcases List.mem_append.1 hp with hp' | hp'
          · rcases List.mem_append.1 hp' with hp'' | hp''
            · rcases List.mem_append.1 hp'' with hp3 | hp3
              · exact ih l' k0 false w0 p hp3
              · exact ih l' k1 false w1 p hp3
            · exact ih l' k2 false w2 p hp''
          · exact ih l' k3 true w3 p hp'
    · rw [if_neg hu] at hp
      simp at hp

/-- The bits of pass `k + 1`, grouped by the non-uniform parents of pass
`k`. -/
theorem passBits_succ (L : Nat) (root : QNode) (k : Nat) :
    passBits L root (k + 1) =
      (visitedAt (some root) false k).flatMap
        (fun p => if p.1.u = false then (childPairs p.1).flatMap (bitsFor L (k + 1))
                  else []) := by
  unfold passBits
  rw [visitedAt_succ, List.flatMap_assoc]
  congr 1
  funext p
  by_cases hu : p.1.u = false <;> simp [hu]

theorem write_node_bits_le_one (n : QNode) (is_leaf is_interpolated : Bool) :
    ∀ x ∈ write_node_bits n is_leaf is_interpolated, x ≤ 1 := by
  intro x hx
  unfold write_node_bits at hx
  rcases List.mem_append.1 hx with h | h
  · split at h
    · exact bitsMSB_le_one x h
    · simp at h
  · split at h
    · simp at h
    · rcases List.mem_append.1 h with h2 | h2
      · exact bitsMSB_le_one x h2
      · split at h2
        · exact bitsMSB_le_one x h2
        · simp at h2

theorem passBits_le_one (L : Nat) (root : QNode) (k : Nat) :
    ∀ x ∈ passBits L root k, x ≤ 1 := by
  intro x hx
  obtain ⟨p, _, hp⟩ := List.mem_flatMap.1 hx
  exact write_node_bits_le_one _ _ _ x hp

/-- The flushed body bytes of `compress_tree_data` spell out the pass bit
strings of levels `0 .. n_levels` in order, then padding. -/
theorem compress_tree_data_stream (root : QNode) (L sz : Nat) :
    ∃ zs, ((compress_tree_data ⟨root, L, sz⟩).bytes_written).flatMap byteBits =
      (List.range (L + 1)).flatMap (passBits L root) ++ zs := by
  have hfun : (fun (s : CompressState) (level : Nat) =>
      compress_tree_level L (some root) s 0 level false) =
      (fun s level => write_bit_list s (passBits L root level)) := by
    funext s k
    have h := compress_tree_level_visited L k (some root) s 0 false
    rw [Nat.zero_add] at h
    simpa only [passBits, bitsFor] using h
  have h2 : write_bit_list compress_init ((List.range (L + 1)).flatMap (passBits L root)) =
      (List.range (L + 1)).foldl (fun acc k => write_bit_list acc (passBits L root k))
        compress_init :=
    foldl_flatMap_eq _ _ _ _
  obtain ⟨zs, hz⟩ := compress_stream_spec ((List.range (L + 1)).flatMap (passBits L root))
    (by intro x hx
        obtain ⟨k, _, hk⟩ := List.mem_flatMap.1 hx
        exact passBits_le_one L root k x hk)
  refine ⟨zs, ?_⟩
  show ((compress_flush ((List.range (L + 1)).foldl
      (fun s level => compress_tree_level L (some root) s 0 level false)
      compress_init)).bytes_written).flatMap byteBits = _
  rw [hfun, ← h2]
  exact hz

/-! ## Decoding one node of the stream -/

/-- The fourth-mean reconstruction is exact under the parent-sum identity. -/
theorem calculate_fourth_mean_exact {pm e m0 m1 m2 m3 : Nat}
    (hsum : m0 + m1 + m2 + m3 = 4 * pm + e) (h3 : m3 < 256) :
    calculate_fourth_mean pm e m0 m1 m2 = m3 := by
  unfold calculate_fourth_mean
  have h : (4 * (pm : Int) + (e : Int) - ((m0 : Int) + (m1 : Int) + (m2 : Int))) = (m3 : Int) := by
    omega
  rw [h, Int.emod_eq_of_lt (by positivity) (by exact_mod_cast h3)]
  simp

theorem WF_e_ne_zero_u_false {l : Nat} {c : QNode} (hwf : WF l c) (he : c.e ≠ 0) :
    c.u = false := by
  cases l with
  | zero => exact absurd hwf.2.1 he
  | succ l' =>
    rcases hwf.2.2 with ⟨_, he0, _⟩ | ⟨hu, _⟩
    · exact absurd he0 he
    · exact hu

/-- Decoding the attribute bits of one node recovers exactly the residual and
uniformity flag the encoder wrote for it. -/
theorem decompress_node_attrs_spec {r : BitReader} {rest : List Nat}
    {c : QNode} {lvl L m : Nat} (hr : RInv r) (hlvl : lvl ≤ L)
    (hwf : WF (L - lvl) c)
    (hsplit : rbits r =
      (if (c.e == 0 && c.u && (lvl == L)) = true then []
       else bitsMSB c.e 2 ++ (if c.e == 0 then bitsMSB c.u.toNat 1 else [])) ++ rest) :
    (decompress_node_attrs r lvl L m).1 = some ⟨m, c.e, c.u⟩ ∧
    RInv (decompress_node_attrs r lvl L m).2 ∧
    rbits (decompress_node_attrs r lvl L m).2 = rest := by
  simp only [decompress_node_attrs]
  by_cases hl : lvl < L
  · rw [if_pos hl]
    have hneq : (lvl == L) = false := by simp; omega
    simp only [hneq, Bool.and_false] at hsplit
    simp only [Bool.false_eq_true, if_false] at hsplit
    rw [List.append_assoc] at hsplit
    have he4 : c.e < 2 ^ 2 := by have := WF_e_le hwf; norm_num; omega
    obtain ⟨g1, g2, g3⟩ := read_bits_msb hr he4 (by norm_num) hsplit
    rw [g1]
    by_cases he : c.e = 0
    · have heb : (c.e == 0) = true := by simp [he]
      rw [if_pos heb] at g3
      rw [if_pos heb]
      have hub : bitsMSB c.u.toNat 1 = [c.u.toNat] := by cases c.u <;> rfl
      rw [hub, List.singleton_append] at g3
      obtain ⟨q1, q2, q3⟩ := read_bit_spec g2 g3
      rw [q1]
      have huq : (c.u.toNat == 1) = c.u := by cases c.u <;> rfl
      rw [huq]
      exact ⟨rfl, q2, q3⟩
    · have heb : (c.e == 0) = false := by simp [he]
      rw [if_neg (by simp [heb])] at g3
      rw [if_neg (by simp [heb])]
      rw [List.nil_append] at g3
      have hu : c.u = false := WF_e_ne_zero_u_false hwf he
      refine ⟨?_, g2, g3⟩
      rw [hu]
      rfl
  · have hL : lvl = L := by omega
    rw [if_neg hl]
    have h0 : L - lvl = 0 := by omega
    rw [h0] at hwf
    have he := hwf.2.1
    have hu := hwf.2.2.1
    have hflag : (c.e == 0 && c.u && (lvl == L)) = true := by simp [he, hu, hL]
    rw [if_pos hflag, List.nil_append] at hsplit
    exact ⟨by rw [he, hu], hr, hsplit⟩

/-- Decoding a non-BL child: the 8-bit mean is read back, then the
attributes. -/
theorem decompress_node_spec_mean {r : BitReader} {rest : List Nat}
    {c : QNode} {lvl L : Nat} (idx : Nat) (hidx : idx < 3) (hr : RInv r) (hlvl : lvl ≤ L)
    (hwf : WF (L - lvl) c)
    (hsplit : rbits r =
      write_node_bits c (c.e == 0 && c.u && (lvl == L)) false ++ rest) :
    (decompress_node r lvl L none idx).1 = some ⟨c.m, c.e, c.u⟩ ∧
    RInv (decompress_node r lvl L none idx).2 ∧
    rbits (decompress_node r lvl L none idx).2 = rest := by
  have hm : c.m < 256 := WF_m_lt hwf
  simp only [decompress_node]
  rw [hr.2.2]
  rw [if_neg (by simp), if_pos hidx]
  unfold write_node_bits at hsplit
  rw [Bool.not_false] at hsplit
  rw [if_pos (rfl : (true : Bool) = true), List.append_assoc] at hsplit
  obtain ⟨g1, g2, g3⟩ := read_bits_msb hr (show c.m < 2 ^ 8 by norm_num; omega) (by norm_num)
    hsplit
  rw [g1]
  exact decompress_node_attrs_spec (m := c.m) g2 hlvl hwf g3

/-- Decoding the BL child: no mean bits are read; the mean is reconstructed
from the parent information. -/
theorem decompress_node_spec_fourth {r : BitReader} {rest : List Nat}
    {c : QNode} {lvl L : Nat} {p : ParentInfo} (hr : RInv r) (hlvl : lvl ≤ L)
    (hwf : WF (L - lvl) c)
    (hm : calculate_fourth_mean p.m p.e p.m0 p.m1 p.m2 = c.m)
    (hsplit : rbits r =
      write_node_bits c (c.e == 0 && c.u && (lvl == L)) true ++ rest) :
    (decompress_node r lvl L (some p) 3).1 = some ⟨c.m, c.e, c.u⟩ ∧
    RInv (decompress_node r lvl L (some p) 3).2 ∧
    rbits (decompress_node r lvl L (some p) 3).2 = rest := by
  simp only [decompress_node]
  rw [hr.2.2]
  rw [if_neg (by simp), if_neg (by norm_num : ¬ (3 < 3))]
  unfold write_node_bits at hsplit
  rw [Bool.not_true] at hsplit
  simp only [Bool.false_eq_true, if_false, List.nil_append] at hsplit
  rw [hm]
  exact decompress_node_attrs_spec (m := c.m) hr hlvl hwf hsplit

/-- Decoding the four children of one non-uniform parent recovers their
records in quadrant order and consumes exactly their bits. -/
theorem decompress_children_spec {r : BitReader} {rest : List Nat}
    {n k0 k1 k2 k3 : QNode} {lvl L : Nat} (hr : RInv r) (hlvl : lvl ≤ L)
    (hw0 : WF (L - lvl) k0) (hw1 : WF (L - lvl) k1) (hw2 : WF (L - lvl) k2)
    (hw3 : WF (L - lvl) k3)
    (hsum : k0.m + k1.m + k2.m + k3.m = 4 * n.m + n.e)
    (hsplit : rbits r =
      bitsFor L lvl (k0, false) ++ (bitsFor L lvl (k1, false) ++
        (bitsFor L lvl (k2, false) ++ (bitsFor L lvl (k3, true) ++ rest)))) :
    (decompress_children r ⟨n.m, n.e, n.u⟩ lvl L).1 =
      some [⟨k0.m, k0.e, k0.u⟩, ⟨k1.m, k1.e, k1.u⟩, ⟨k2.m, k2.e, k2.u⟩, ⟨k3.m, k3.e, k3.u⟩] ∧
    RInv (decompress_children r ⟨n.m, n.e, n.u⟩ lvl L).2 ∧
    rbits (decompress_children r ⟨n.m, n.e, n.u⟩ lvl L).2 = rest := by
  simp only [bitsFor] at hsplit
  obtain ⟨e0, i0, b0⟩ := decompress_node_spec_mean 0 (by norm_num) hr hlvl hw0 hsplit
  rcases hd0 : decompress_node r lvl L none 0 with ⟨v0, r0⟩
  rw [hd0] at e0 i0 b0
  dsimp only at e0 i0 b0
  subst e0
  unfold decompress_children
  rw [hd0]
  dsimp only
  obtain ⟨e1, i1, b1⟩ := decompress_node_spec_mean 1 (by norm_num) i0 hlvl hw1 b0
  rcases hd1 : decompress_node r0 lvl L none 1 with ⟨v1, r1⟩
  rw [hd1] at e1 i1 b1
  dsimp only at e1 i1 b1
  subst e1
  dsimp only
  obtain ⟨e2, i2, b2⟩ := decompress_node_spec_mean 2 (by norm_num) i1 hlvl hw2 b1
  rcases hd2 : decompress_node r1 lvl L none 2 with ⟨v2, r2⟩
  rw [hd2] at e2 i2 b2
  dsimp only at e2 i2 b2
  subst e2
  dsimp only
  have hm3 : calculate_fourth_mean n.m n.e k0.m k1.m k2.m = k3.m :=
    calculate_fourth_mean_exact hsum (WF_m_lt hw3)
  obtain ⟨e3, i3, b3⟩ := decompress_node_spec_fourth
    (p := ⟨n.m, n.e, k0.m, k1.m, k2.m⟩) i2 hlvl hw3 hm3 b2
  rcases hd3 : decompress_node r2 lvl L (some ⟨n.m, n.e, k0.m, k1.m, k2.m⟩) 3 with ⟨v3, r3⟩
  rw [hd3] at e3 i3 b3
  dsimp only at e3 i3 b3
  subst e3
  exact ⟨rfl, i3, b3⟩

/-- Decoding one level: the parents of visit level `k` (as records) are
walked in order; uniform ones are skipped, each non-uniform one contributes
its four decoded children; exactly the pass-`k+1` bits are consumed. -/
theorem decompress_level_spec (L : Nat) : ∀ (vs : List (QNode × Bool)) (k : Nat)
    (r : BitReader) (rest : List Nat),
    RInv r → k < L →
    (∀ p ∈ vs, WF (L - k) p.1) →
    rbits r = (vs.flatMap
      (fun p => if p.1.u = false then (childPairs p.1).flatMap (bitsFor L (k + 1))
                else [])) ++ rest →
    (decompress_level r (vs.map recOf) (k + 1) L).1 =
      some ((vs.flatMap (fun p => if p.1.u = false then childPairs p.1 else [])).map recOf) ∧
    RInv (decompress_level r (vs.map recOf) (k + 1) L).2 ∧
    rbits (decompress_level r (vs.map recOf) (k + 1) L).2 = rest := by
  intro vs
  induction vs with
  | nil =>
    intro k r rest hr _ _ hsplit
    refine ⟨rfl, hr, ?_⟩
    simpa using hsplit
  | cons q vs ih =>
    intro k r rest hr hk hwf hsplit
    obtain ⟨n, flag⟩ := q
    rw [List.map_cons]
    simp only [decompress_level]
    rw [hr.2.2]
    rw [if_neg (by simp)]
    rw [List.flatMap_cons] at hsplit
    dsimp only at hsplit
    by_cases hu : n.u = false
    · rw [if_pos hu] at hsplit
      have hpu : ((recOf (n, flag)).u = true) = (n.u = true) := rfl
      rw [if_neg (show ¬ ((recOf (n, flag)).u = true) by rw [hpu, hu]; simp)]
      have hLk : L - k = (L - (k + 1)) + 1 := by omega
      have hn := hwf (n, flag) (List.mem_cons_self _ _)
      rw [hLk] at hn
      rcases hn.2.2 with ⟨hut, _⟩ | ⟨_, k0, k1, k2, k3, h0, h1, h2, h3, w0, w1, w2, w3, hs⟩
      · rw [hut] at hu; simp at hu
      · have hcp : childPairs n = [(k0, false), (k1, false), (k2, false), (k3, true)] := by
          unfold childPairs
          rw [h0, h1, h2, h3]
          rfl
        rw [hcp] at hsplit
        simp only [List.flatMap_cons, List.flatMap_nil, List.append_nil,
          List.append_assoc] at hsplit
        obtain ⟨c1, c2, c3⟩ := decompress_children_spec (n := n) hr (by omega) w0 w1 w2 w3 hs
          hsplit
        have hrec : recOf (n, flag) = (⟨n.m, n.e, n.u⟩ : NodeRec) := rfl
        rw [hrec]
        rcases hdc : decompress_children r ⟨n.m, n.e, n.u⟩ (k + 1) L with ⟨w, r1⟩
        rw [hdc] at c1 c2 c3
        dsimp only at c1 c2 c3
        subst c1
        dsimp only
        obtain ⟨g1, g2, g3⟩ := ih k r1 rest c2 hk
          (fun p hp => hwf p (List.mem_cons_of_mem _ hp)) c3
        rcases hdl : decompress_level r1 (vs.map recOf) (k + 1) L with ⟨wl, r2⟩
        rw [hdl] at g1 g2 g3
        dsimp only at g1 g2 g3
        subst g1
        dsimp only
        refine ⟨?_, g2, g3⟩
        rw [List.flatMap_cons]
        dsimp only
        rw [if_pos hu, hcp]
        simp [recOf]
    · have hnu : n.u = true := by revert hu; cases n.u <;> simp
      rw [if_neg (by rw [hnu]; simp : ¬ (n.u = false)), List.nil_append] at hsplit
      rw [if_pos (show (recOf (n, flag)).u = true from hnu)]
      obtain ⟨g1, g2, g3⟩ := ih k r rest hr hk
        (fun p hp => hwf p (List.mem_cons_of_mem _ hp)) hsplit
      refine ⟨?_, g2, g3⟩
      rw [g1, List.flatMap_cons]
      dsimp only
      rw [if_neg (by rw [hnu]; simp : ¬ (n.u = false)), List.nil_append]

/-- Decoding all levels below visit level `k`: each level's records come back
in visit order and the passes' bits are consumed in order. -/
theorem decompress_levels_spec (L : Nat) (root : QNode) (hroot : WF L root) :
    ∀ (c k : Nat), k + c = L → ∀ (r : BitReader) (rest : List Nat), RInv r →
    rbits r = (List.range' (k + 1) c).flatMap (passBits L root) ++ rest →
    (decompress_levels L (k + 1) c ((visitedAt (some root) false k).map recOf) r).1 =
      some ((List.range' (k + 1) c).map
        (fun i => (visitedAt (some root) false i).map recOf)) ∧
    RInv (decompress_levels L (k + 1) c ((visitedAt (some root) false k).map recOf) r).2 ∧
    rbits (decompress_levels L (k + 1) c
      ((visitedAt (some root) false k).map recOf) r).2 = rest := by
  intro c
  induction c with
  | zero =>
    intro k _ r rest hr hsplit
    refine ⟨rfl, hr, ?_⟩
    simpa using hsplit
  | succ c ih =>
    intro k hkc r rest hr hsplit
    have hkL : k < L := by omega
    simp only [decompress_levels]
    rw [hr.2.2, if_neg (by simp)]
    have hre : List.range' (k + 1) (c + 1) = (k + 1) :: List.range' (k + 2) c := rfl
    rw [hre, List.flatMap_cons, List.append_assoc, passBits_succ] at hsplit
    obtain ⟨g1, g2, g3⟩ := decompress_level_spec L (visitedAt (some root) false k) k r _
      hr hkL (fun p hp => visitedAt_WF k L root false hroot p hp) hsplit
    rcases hdl : decompress_level r ((visitedAt (some root) false k).map recOf) (k + 1) L
      with ⟨v1, r1⟩
    rw [hdl] at g1 g2 g3
    dsimp only at g1 g2 g3
    subst g1
    dsimp only
    have hnext : (visitedAt (some root) false k).flatMap
        (fun p => if p.1.u = false then childPairs p.1 else []) =
        visitedAt (some root) false (k + 1) := (visitedAt_succ k (some root) false).symm
    rw [hnext]
    obtain ⟨h1, h2, h3⟩ := ih (k + 1) (by omega) r1 rest g2 g3
    rcases hdls : decompress_levels L (k + 1 + 1) c
        ((visitedAt (some root) false (k + 1)).map recOf) r1 with ⟨v2, r2⟩
    rw [hdls] at h1 h2 h3
    dsimp only at h1 h2 h3
    subst h1
    dsimp only
    exact ⟨rfl, h2, h3⟩

/-- Decoding the body of a stream that spells out the encoder's passes for a
well-formed root recovers the root record and all per-level records. -/
theorem qtree_decompress_body_spec (L : Nat) (root : QNode) (hroot : WF L root)
    (body zs : List Nat)
    (hbody : body.flatMap byteBits = (List.range (L + 1)).flatMap (passBits L root) ++ zs) :
    ∃ r2, qtree_decompress_body L body =
      (QtreeStatus.success,
       some (⟨root.m, root.e, root.u⟩,
         (List.range' 1 L).map (fun i => (visitedAt (some root) false i).map recOf)), r2) := by
  have hr0 : RInv ⟨0, 8, body, false, false⟩ := ⟨le_refl 8, rfl, rfl⟩
  have hrb0 : rbits ⟨0, 8, body, false, false⟩ = body.flatMap byteBits := by
    unfold rbits
    dsimp only
    rw [show (8:Nat) = (byteBits 0).length from (bitsMSB_length _ _).symm, List.drop_length,
      List.nil_append]
  have hsplitall : List.range (L + 1) = 0 :: List.range' 1 L := by
    rw [List.range_eq_range' (L + 1)]
    rfl
  have hsplit0 : rbits ⟨0, 8, body, false, false⟩ =
      write_node_bits root (root.e == 0 && root.u && ((0:Nat) == L)) false ++
        ((List.range' 1 L).flatMap (passBits L root) ++ zs) := by
    rw [hrb0, hbody, hsplitall, List.flatMap_cons, List.append_assoc]
    congr 1
    unfold passBits bitsFor
    rw [visitedAt_some_zero]
    simp
  have hwroot : WF (L - 0) root := by rw [Nat.sub_zero]; exact hroot
  obtain ⟨e0, i0, b0⟩ := decompress_node_spec_mean 0 (by norm_num) hr0
    (Nat.zero_le L) hwroot hsplit0
  simp only [qtree_decompress_body]
  rcases hd0 : decompress_node ⟨0, 8, body, false, false⟩ 0 L none 0 with ⟨v0, r1⟩
  rw [hd0] at e0 i0 b0
  dsimp only at e0 i0 b0
  subst e0
  dsimp only
  have hprev : [(⟨root.m, root.e, root.u⟩ : NodeRec)] =
      (visitedAt (some root) false 0).map recOf := by
    rw [visitedAt_some_zero]; rfl
  rw [hprev]
  obtain ⟨l1, l2, l3⟩ := decompress_levels_spec L root hroot L 0 (by omega) r1 zs i0 b0
  simp only [Nat.zero_add] at l1 l2 l3
  rcases hdls : decompress_levels L 1 L ((visitedAt (some root) false 0).map recOf) r1
    with ⟨v1, r2⟩
  rw [hdls] at l1 l2 l3
  dsimp only at l1 l2 l3
  subst l1
  dsimp only
  rw [l2.2.2]
  rw [if_neg (by simp)]
  exact ⟨r2, rfl⟩

/-! ## Reassembling the pointer structure -/

theorem qnode_eta (n : QNode) : QNode.mk n.m n.e n.u n.c0 n.c1 n.c2 n.c3 = n := by
  obtain ⟨m, e, u, c0, c1, c2, c3⟩ := n
  rfl

theorem WF_uniform_children {l : Nat} {n : QNode} (hwf : WF l n) (hu : n.u = true) :
    n.c0 = none ∧ n.c1 = none ∧ n.c2 = none ∧ n.c3 = none := by
  cases l with
  | zero => exact ⟨hwf.2.2.2.1, hwf.2.2.2.2.1, hwf.2.2.2.2.2.1, hwf.2.2.2.2.2.2⟩
  | succ l' =>
    rcases hwf.2.2 with ⟨_, _, h0, h1, h2, h3⟩ | ⟨huf, _⟩
    · exact ⟨h0, h1, h2, h3⟩
    · rw [hu] at huf; simp at huf

theorem node_of_rec_recOf {l : Nat} {n : QNode} {flag : Bool}
    (hwf : WF l n) (hu : n.u = true) : node_of_rec (recOf (n, flag)) = n := by
  obtain ⟨h0, h1, h2, h3⟩ := WF_uniform_children hwf hu
  show QNode.mk n.m n.e n.u none none none none = n
  conv_rhs => rw [← qnode_eta n, h0, h1, h2, h3]

/-- Attaching the (already assembled) children of the next level to this
level's records rebuilds exactly this level's nodes. -/
theorem attach_level_spec (L k : Nat) : ∀ (vs : List (QNode × Bool)),
    (∀ p ∈ vs, WF (L - k) p.1) →
    attach_level (vs.map recOf)
      ((vs.flatMap (fun p => if p.1.u = false then childPairs p.1 else [])).map Prod.fst) =
      vs.map Prod.fst := by
  intro vs
  induction vs with
  | nil => intro _; rfl
  | cons q vs ih =>
    intro hwf
    obtain ⟨n, flag⟩ := q
    rw [List.map_cons, List.map_cons, List.flatMap_cons]
    dsimp only
    have hn := hwf (n, flag) (List.mem_cons_self _ _)
    by_cases hu : n.u = false
    · rw [if_pos hu]
      rcases hLk : L - k with _ | l
      · rw [hLk] at hn; exact absurd hn.2.2.1 (by rw [hu]; simp)
      · rw [hLk] at hn
        rcases hn.2.2 with ⟨hut, _⟩ | ⟨_, k0, k1, k2, k3, h0, h1, h2, h3, _, _, _, _, _⟩
        · rw [hut] at hu; simp at hu
        · have hcp : childPairs n = [(k0, false), (k1, false), (k2, false), (k3, true)] := by
            unfold childPairs; rw [h0, h1, h2, h3]; rfl
          rw [hcp]
          simp only [List.map_append, List.map_cons, List.map_nil, List.cons_append,
            List.nil_append]
          simp only [attach_level]
          rw [if_neg (show ¬ ((recOf (n, flag)).u = true) by
            show ¬ (n.u = true); rw [hu]; simp)]
          congr 1
          · show QNode.mk n.m n.e n.u (some k0) (some k1) (some k2) (some k3) = n
            rw [← h0, ← h1, ← h2, ← h3, qnode_eta]
          · exact ih (fun p hp => hwf p (List.mem_cons_of_mem _ hp))
    · have hnu : n.u = true := by revert hu; cases n.u <;> simp
      rw [if_neg (by rw [hnu]; simp : ¬ (n.u = false)), List.nil_append]
      simp only [attach_level]
      rw [if_pos (show (recOf (n, flag)).u = true from hnu)]
      congr 1
      · exact node_of_rec_recOf hn hnu
      · exact ih (fun p hp => hwf p (List.mem_cons_of_mem _ hp))

/-- Assembling the decoded levels below visit level `k` onto visit level `k`
rebuilds exactly that level's nodes. -/
theorem assemble_levels_spec (L : Nat) (root : QNode) (hroot : WF L root) :
    ∀ (c k : Nat), k + c = L →
    assemble_levels
      ((List.range' (k + 1) c).map (fun i => (visitedAt (some root) false i).map recOf))
      ((visitedAt (some root) false k).map recOf) =
      (visitedAt (some root) false k).map Prod.fst := by
  intro c
  induction c with
  | zero =>
    intro k hkc
    show ((visitedAt (some root) false k).map recOf).map node_of_rec = _
    rw [List.map_map]
    apply List.map_congr_left
    intro p hp
    obtain ⟨n, flag⟩ := p
    have hw := visitedAt_WF k L root false hroot (n, flag) hp
    have h0 : L - k = 0 := by omega
    rw [h0] at hw
    exact node_of_rec_recOf hw hw.2.2.1
  | succ c ih =>
    intro k hkc
    have hre : List.range' (k + 1) (c + 1) = (k + 1) :: List.range' (k + 1 + 1) c := rfl
    rw [hre, List.map_cons]
    show attach_level ((visitedAt (some root) false k).map recOf)
      (assemble_levels
        ((List.range' (k + 1 + 1) c).map (fun i => (visitedAt (some root) false i).map recOf))
        ((visitedAt (some root) false (k + 1)).map recOf)) = _
    rw [ih (k + 1) (by omega)]
    rw [show visitedAt (some root) false (k + 1) =
      (visitedAt (some root) false k).flatMap
        (fun p => if p.1.u = false then childPairs p.1 else []) from
      visitedAt_succ k (some root) false]
    exact attach_level_spec L k _ (fun p hp => visitedAt_WF k L root false hroot p hp)

/-- Assembling the decoded records of a well-formed root rebuilds the root. -/
theorem assemble_tree_spec (L : Nat) (root : QNode) (hroot : WF L root) :
    assemble_tree ⟨root.m, root.e, root.u⟩
      ((List.range' 1 L).map (fun i => (visitedAt (some root) false i).map recOf)) = root := by
  unfold assemble_tree
  have h := assemble_levels_spec L root hroot L 0 (by omega)
  simp only [Nat.zero_add] at h
  rw [visitedAt_some_zero] at h
  simp only [List.map_cons, List.map_nil] at h
  rw [show (recOf (root, false)) = (⟨root.m, root.e, root.u⟩ : NodeRec) from rfl] at h
  rw [h]

/-! ## Header processing on a compressed stream -/

theorem take_append_cons : ∀ (c : List Nat) (x : Nat) (l : List Nat) (n : Nat),
    c.length ≤ n → (c ++ x :: l).take (n + 1) = c ++ x :: l.take (n - c.length) := by
  intro c
  induction c with
  | nil => intro x l n _; simp
  | cons a c ih =>
    intro x l n hn
    cases n with
    | zero => simp at hn
    | succ m =>
      rw [List.cons_append, List.take_succ_cons, ih x l m (by simpa using hn)]
      simp [Nat.succ_sub_succ]

theorem drop_append_cons : ∀ (c : List Nat) (x : Nat) (l : List Nat),
    (c ++ x :: l).drop (c.length + 1) = l := by
  intro c
  induction c with
  | nil => intro x l; simp
  | cons a c ih =>
    intro x l
    simp only [List.cons_append, List.length_cons]
    rw [List.drop_succ_cons]
    exact ih x l

theorem findIdx_newline : ∀ (c : List Nat), (∀ x ∈ c, (x == 0x0A) = false) →
    ∀ l2 : List Nat, ((c ++ 0x0A :: l2).findIdx (· == 0x0A)) = c.length := by
  intro c
  induction c with
  | nil =>
    intro _ l2
    rw [List.nil_append, List.findIdx_cons]
    simp
  | cons a c ih =>
    intro h l2
    rw [List.cons_append, List.findIdx_cons]
    have ha : (a == 0x0A) = false := h a (List.mem_cons_self _ _)
    rw [ha]
    simp only [cond_false]
    rw [ih (fun x hx => h x (List.mem_cons_of_mem _ hx)) l2]
    rfl

/-- A newline-free line of at most 254 bytes followed by a newline is
consumed exactly by `fgets255`. -/
theorem fgets255_line {c rest : List Nat} (hlen : c.length ≤ 254)
    (hnl : ∀ x ∈ c, (x == 0x0A) = false) :
    fgets255 (c ++ 0x0A :: rest) = some rest := by
  have htake : (c ++ 0x0A :: rest).take 255 = c ++ 0x0A :: rest.take (254 - c.length) :=
    take_append_cons c _ rest 254 hlen
  unfold fgets255
  split
  · rename_i heq
    simp at heq
  · rename_i heq
    rw [htake]
    dsimp only
    rw [findIdx_newline c hnl (rest.take (254 - c.length))]
    rw [if_pos (by simp only [List.length_append, List.length_cons]; omega)]
    rw [drop_append_cons]

/-- `process_file_header` on a well-formed header followed by any tail:
the magic and the two comment lines are consumed and the depth byte is
returned along with the tail. -/
theorem process_file_header_stream (L : Nat) (hL : L < 256) (c1 c2 tail : List Nat)
    (h1len : c1.length ≤ 254) (h1nl : ∀ x ∈ c1, (x == 0x0A) = false)
    (h2len : c2.length ≤ 254) (h2nl : ∀ x ∈ c2, (x == 0x0A) = false) :
    process_file_header
      (([0x51, 0x31, 0x0A] ++ c1 ++ [0x0A] ++ c2 ++ [0x0A] ++ [L % 256]) ++ tail) =
      some (L, tail) := by
  have hnorm : ([0x51, 0x31, 0x0A] ++ c1 ++ [0x0A] ++ c2 ++ [0x0A] ++ [L % 256]) ++ tail
      = 0x51 :: 0x31 :: 0x0A :: (c1 ++ 0x0A :: (c2 ++ 0x0A :: (L % 256) :: tail)) := by
    simp [List.append_assoc]
  rw [hnorm]
  have hred : process_file_header
      (0x51 :: 0x31 :: 0x0A :: (c1 ++ 0x0A :: (c2 ++ 0x0A :: (L % 256) :: tail))) =
      (match fgets255 (c1 ++ 0x0A :: (c2 ++ 0x0A :: (L % 256) :: tail)) with
       | none => none
       | some rest1 =>
         match fgets255 rest1 with
         | none => none
         | some rest2 =>
           match rest2 with
           | [] => none
           | b :: t => some (b, t)) := rfl
  rw [hred, fgets255_line h1len h1nl]
  dsimp only
  rw [fgets255_line h2len h2nl]
  dsimp only
  rw [Nat.mod_eq_of_lt hL]

/-! ## Pointwise semantics of the renderer -/

theorem clampRange_eq (lo len total : Nat) (h : lo + len ≤ total) :
    clampRange lo len total = List.range' lo len := by
  unfold clampRange
  rw [min_eq_left h, Nat.add_sub_cancel_left]

theorem foldl_writePix (v : Nat) : ∀ (len lo base : Nat) (a : Buf) (k : Nat),
    ((List.range' lo len).foldl (fun acc j => writePix acc (base + j) v) a) k =
      if base + lo ≤ k ∧ k < base + lo + len then v else a k := by
  intro len
  induction len with
  | zero =>
    intro lo base a k
    rw [if_neg (by omega)]
    rfl
  | succ len ih =>
    intro lo base a k
    rw [show List.range' lo (len + 1) = lo :: List.range' (lo + 1) len from rfl,
      List.foldl_cons]
    rw [ih (lo + 1) base (writePix a (base + lo) v) k]
    simp only [writePix]
    by_cases h1 : base + (lo + 1) ≤ k ∧ k < base + (lo + 1) + len
    · rw [if_pos h1, if_pos (by omega)]
    · rw [if_neg h1]
      by_cases h2 : k = base + lo
      · rw [if_pos h2, if_pos (by omega)]
      · rw [if_neg h2, if_neg (by omega)]

/-- The buffer index `i * S + j` with `j` in a row segment, recognised by
division and remainder. -/
theorem idx_region_iff {S row col sz k : Nat} (hS : 0 < S) (hcol : col + sz ≤ S) :
    (row * S + col ≤ k ∧ k < row * S + col + sz) ↔
    (k / S = row ∧ col ≤ k % S ∧ k % S < col + sz) := by
  have hc : S * row = row * S := Nat.mul_comm S row
  constructor
  · rintro ⟨h1, h2⟩
    have hkeq : k = S * row + (k - row * S) := by omega
    have hjS : k - row * S < S := by omega
    have hdiv : k / S = row := by
      rw [hkeq, Nat.mul_add_div hS, Nat.div_eq_of_lt hjS]
      omega
    have hmod : k % S = k - row * S := by
      conv_lhs => rw [hkeq]
      rw [Nat.mul_add_mod, Nat.mod_eq_of_lt hjS]
    exact ⟨hdiv, by rw [hmod]; omega, by rw [hmod]; omega⟩
  · rintro ⟨hd, hm1, hm2⟩
    have hsm := Nat.div_add_mod k S
    rw [hd] at hsm
    have hmS : k % S < S := Nat.mod_lt _ hS
    omega

theorem fill_block_rows (S v col clen : Nat) (hS : 0 < S) (hcol : col + clen ≤ S) :
    ∀ (rlen rlo : Nat) (b : Buf) (k : Nat),
    ((List.range' rlo rlen).foldl
      (fun acc i => (List.range' col clen).foldl (fun a j => writePix a (i * S + j) v) acc)
      b) k =
    if rlo ≤ k / S ∧ k / S < rlo + rlen ∧ col ≤ k % S ∧ k % S < col + clen
    then v else b k := by
  intro rlen
  induction rlen with
  | zero =>
    intro rlo b k
    rw [if_neg (by omega)]
    rfl
  | succ rlen ih =>
    intro rlo b k
    rw [show List.range' rlo (rlen + 1) = rlo :: List.range' (rlo + 1) rlen from rfl,
      List.foldl_cons]
    rw [ih (rlo + 1) _ k]
    rw [foldl_writePix v clen col (rlo * S) b k]
    simp only [idx_region_iff hS hcol]
    by_cases hd1 : rlo + 1 ≤ k / S ∧ k / S < rlo + 1 + rlen ∧ col ≤ k % S ∧ k % S < col + clen
    · rw [if_pos hd1, if_pos (by omega)]
    · rw [if_neg hd1]
      by_cases hd2 : k / S = rlo ∧ col ≤ k % S ∧ k % S < col + clen
      · rw [if_pos hd2, if_pos (by omega)]
      · rw [if_neg hd2, if_neg (by omega)]

/-- `fill_block` pointwise, for a block inside the image. -/
theorem fill_block_at (b : Buf) (v row col sz S k : Nat) (hS : 0 < S)
    (hrow : row + sz ≤ S) (hcol : col + sz ≤ S) :
    fill_block b v row col sz S k =
      if row ≤ k / S ∧ k / S < row + sz ∧ col ≤ k % S ∧ k % S < col + sz
      then v else b k := by
  unfold fill_block
  rw [clampRange_eq row sz S hrow, clampRange_eq col sz S hcol]
  exact fill_block_rows S v col sz hS hcol sz row b k

/-- The region of a node `build_recursive` marked uniform is constant in the
source image, with value the node's mean. -/
theorem build_uniform_const (pixels : Nat → Nat) (hpix : ∀ i, pixels i < 256) (S : Nat) :
    ∀ (level row col : Nat), (build_recursive pixels S level row col).u = true →
    ∀ i j, row ≤ i → i < row + 2 ^ level → col ≤ j → j < col + 2 ^ level →
      pixels (i * S + j) = (build_recursive pixels S level row col).m := by
  intro level
  induction level with
  | zero =>
    intro row col _ i j hi1 hi2 hj1 hj2
    have h1 : (2:Nat) ^ 0 = 1 := rfl
    rw [h1] at hi2 hj2
    have hie : i = row := by omega
    have hje : j = col := by omega
    subst hie
    subst hje
    rfl
  | succ level ih =>
    intro row col hu i j hi1 hi2 hj1 hj2
    have hp2 : (2:Nat) ^ (level + 1) = 2 ^ level + 2 ^ level := by rw [pow_succ]; ring
    simp only [build_recursive] at hu ⊢
    set k0 := build_recursive pixels S level row col with hk0
    set k1 := build_recursive pixels S level row (col + 2 ^ level) with hk1
    set k2 := build_recursive pixels S level (row + 2 ^ level) (col + 2 ^ level) with hk2
    set k3 := build_recursive pixels S level (row + 2 ^ level) col with hk3
    by_cases hun : (calculate_node_properties k0 k1 k2 k3).2.2 = true
    · rw [if_pos hun]
      simp only [QNode.m_mk]
      have hQ := hun
      unfold calculate_node_properties at hQ
      simp only [Bool.and_eq_true, beq_iff_eq] at hQ
      obtain ⟨⟨he0, ⟨⟨hu0, hu1⟩, hu2⟩, hu3⟩, ⟨hs01, hs12⟩, hs23⟩ := hQ
      have hw0 : WF level k0 := hk0 ▸ build_recursive_WF pixels hpix S level row col
      have hm0 : k0.m < 256 := WF_m_lt hw0
      have h1m : k1.m = k0.m := hs01.symm
      have h2m : k2.m = k0.m := by rw [← hs12, ← hs01]
      have h3m : k3.m = k0.m := by rw [← hs23, ← hs12, ← hs01]
      have hmean : (calculate_node_properties k0 k1 k2 k3).1 = k0.m := by
        unfold calculate_node_properties
        dsimp only
        rw [h1m, h2m, h3m]
        omega
      rw [hmean]
      have hu0' : (build_recursive pixels S level row col).u = true := by rw [← hk0]; exact hu0
      have hu1' : (build_recursive pixels S level row (col + 2 ^ level)).u = true := by
        rw [← hk1]; exact hu1
      have hu2' : (build_recursive pixels S level (row + 2 ^ level) (col + 2 ^ level)).u =
          true := by rw [← hk2]; exact hu2
      have hu3' : (build_recursive pixels S level (row + 2 ^ level) col).u = true := by
        rw [← hk3]; exact hu3
      by_cases hiq : i < row + 2 ^ level
      · by_cases hjq : j < col + 2 ^ level
        · have h := ih row col hu0' i j hi1 hiq hj1 hjq
          rw [h, ← hk0]
        · have h := ih row (col + 2 ^ level) hu1' i j hi1 hiq (by omega) (by omega)
          rw [h, ← hk1, h1m]
      · by_cases hjq : j < col + 2 ^ level
        · have h := ih (row + 2 ^ level) col hu3' i j (by omega) (by omega) hj1 hjq
          rw [h, ← hk3, h3m]
        · have h := ih (row + 2 ^ level) (col + 2 ^ level) hu2' i j (by omega) (by omega)
            (by omega) (by omega)
          rw [h, ← hk2, h2m]
    · rw [if_neg hun] at hu
      simp only [QNode.u_mk] at hu
      exact absurd hu (by simp)

/-- Rendering a built subtree writes back exactly the source pixels on its
region and leaves the rest of the buffer unchanged. -/
theorem extract_pixels_build (pixels : Nat → Nat) (hpix : ∀ i, pixels i < 256)
    (S : Nat) (hS : 0 < S) :
    ∀ (level row col : Nat), row + 2 ^ level ≤ S → col + 2 ^ level ≤ S →
    ∀ (b : Buf) (k : Nat),
      extract_pixels (some (build_recursive pixels S level row col)) b row col (2 ^ level) S k =
      if row ≤ k / S ∧ k / S < row + 2 ^ level ∧ col ≤ k % S ∧ k % S < col + 2 ^ level
      then pixels k else b k := by
  intro level
  induction level with
  | zero =>
    intro row col hrow hcol b k
    have h1 : (2:Nat) ^ 0 = 1 := rfl
    rw [h1] at hrow hcol ⊢
    simp only [build_recursive]
    rw [extract_pixels_some]
    rw [if_pos (by rw [Bool.true_or] : ((true : Bool) || ((1:Nat) == 1)) = true)]
    rw [fill_block_at b _ row col 1 S k hS hrow hcol]
    by_cases hc : row ≤ k / S ∧ k / S < row + 1 ∧ col ≤ k % S ∧ k % S < col + 1
    · rw [if_pos hc, if_pos hc]
      obtain ⟨hc1, hc2, hc3, hc4⟩ := hc
      have h1' : k / S = row := by omega
      have h2' : k % S = col := by omega
      have hdm := Nat.div_add_mod k S
      rw [h1', h2'] at hdm
      have hcm : S * row = row * S := Nat.mul_comm S row
      have hke : k = row * S + col := by omega
      rw [hke]
    · rw [if_neg hc, if_neg hc]
  | succ level ih =>
    intro row col hrow hcol b k
    have hp2 : (2:Nat) ^ (level + 1) = 2 ^ level + 2 ^ level := by rw [pow_succ]; ring
    have hp1 : (1:Nat) ≤ 2 ^ level := Nat.one_le_two_pow
    simp only [build_recursive]
    set k0 := build_recursive pixels S level row col with hk0
    set k1 := build_recursive pixels S level row (col + 2 ^ level) with hk1
    set k2 := build_recursive pixels S level (row + 2 ^ level) (col + 2 ^ level) with hk2
    set k3 := build_recursive pixels S level (row + 2 ^ level) col with hk3
    by_cases hun : (calculate_node_properties k0 k1 k2 k3).2.2 = true
    · rw [if_pos hun]
      rw [extract_pixels_some]
      rw [if_pos (by rw [Bool.true_or] :
        ((true : Bool) || ((2:Nat) ^ (level + 1) == 1)) = true)]
      rw [fill_block_at b _ row col (2 ^ (level + 1)) S k hS hrow hcol]
      by_cases hc : row ≤ k / S ∧ k / S < row + 2 ^ (level + 1) ∧ col ≤ k % S ∧
          k % S < col + 2 ^ (level + 1)
      · rw [if_pos hc, if_pos hc]
        have hall : (build_recursive pixels S (level + 1) row col).u = true := by
          simp only [build_recursive]
          rw [← hk0, ← hk1, ← hk2, ← hk3, if_pos hun]
          rfl
        have hbu := build_uniform_const pixels hpix S (level + 1) row col hall
          (k / S) (k % S) (by omega) (by omega) (by omega) (by omega)
        simp only [build_recursive] at hbu
        rw [← hk0, ← hk1, ← hk2, ← hk3, if_pos hun] at hbu
        simp only [QNode.m_mk] at hbu
        have hdm := Nat.div_add_mod k S
        have hcm : S * (k / S) = (k / S) * S := Nat.mul_comm _ _
        have hke : k = k / S * S + k % S := by omega
        conv_rhs => rw [hke]
        rw [hbu]
      · rw [if_neg hc, if_neg hc]
    · rw [if_neg hun]
      rw [extract_pixels_some]
      have hs1 : (((2:Nat) ^ (level + 1)) == 1) = false := by simp; omega
      rw [if_neg (by rw [hs1, Bool.or_false]; simp :
        ¬ (((false : Bool) || (((2:Nat) ^ (level + 1)) == 1)) = true))]
      have hhalf : (2:Nat) ^ (level + 1) / 2 = 2 ^ level := by omega
      rw [hhalf]
      rw [hk0, hk1, hk2, hk3]
      rw [ih (row + 2 ^ level) col (by omega) (by omega) _ k]
      rw [ih (row + 2 ^ level) (col + 2 ^ level) (by omega) (by omega) _ k]
      rw [ih row (col + 2 ^ level) (by omega) (by omega) _ k]
      rw [ih row col (by omega) (by omega) b k]
      split_ifs <;> first | rfl | omega

/-! ## C1: the lossless round trip -/

/-- **C1.** For every valid input raster (square side `2^L` with `L < 256`,
8-bit pixels) and any newline-free comment lines of at most 254 bytes:
decompressing the compressed stream succeeds and returns exactly the built
tree, and rendering the decoded tree (the composition `decode_render`,
starting from the calloc'd zero buffer) reproduces every pixel of the input
raster — compress-then-decompress is the identity on pixels. -/
theorem C1_lossless_roundtrip (L : Nat) (pixels : Nat → Nat)
    (hpix : ∀ i, pixels i < 256) (hL : L < 256)
    (c1 c2 : List Nat) (h1len : c1.length ≤ 254) (h1nl : ∀ x ∈ c1, (x == 0x0A) = false)
    (h2len : c2.length ≤ 254) (h2nl : ∀ x ∈ c2, (x == 0x0A) = false) :
    (qtree_decompress (compress (qtree_build pixels (2 ^ L)) c1 c2)).map
        (fun res => (res.1, res.2.1)) =
      some (QtreeStatus.success, some (qtree_build pixels (2 ^ L))) ∧
    (∀ k, k < 2 ^ L * 2 ^ L →
      decode_render (compress (qtree_build pixels (2 ^ L)) c1 c2) k = some (pixels k)) := by
  rw [qtree_build_pow2]
  set root := build_recursive pixels (2 ^ L) L 0 0 with hroot_def
  have hroot : WF L root := build_recursive_WF pixels hpix (2 ^ L) L 0 0
  have hcomp : compress ⟨root, L, 2 ^ L⟩ c1 c2 =
      ([0x51, 0x31, 0x0A] ++ c1 ++ [0x0A] ++ c2 ++ [0x0A] ++ [L % 256]) ++
        (compress_tree_data ⟨root, L, 2 ^ L⟩).bytes_written := by
    unfold compress write_header
    simp [List.append_assoc]
  have hph := process_file_header_stream L hL c1 c2
    ((compress_tree_data ⟨root, L, 2 ^ L⟩).bytes_written) h1len h1nl h2len h2nl
  obtain ⟨zs, hzs⟩ := compress_tree_data_stream root L (2 ^ L)
  obtain ⟨r2, hbody⟩ := qtree_decompress_body_spec L root hroot _ zs hzs
  have hdec : qtree_decompress (compress ⟨root, L, 2 ^ L⟩ c1 c2) =
      some (QtreeStatus.success, some ⟨root, L, 2 ^ L⟩, r2) := by
    unfold qtree_decompress
    rw [hcomp, hph]
    dsimp only
    rw [hbody]
    dsimp only
    rw [assemble_tree_spec L root hroot]
  refine ⟨by rw [hdec]; rfl, ?_⟩
  intro k hk
  unfold decode_render
  rw [hdec]
  dsimp only
  congr 1
  have hS : (0:Nat) < 2 ^ L := Nat.pos_pow_of_pos L (by norm_num)
  have hext := extract_pixels_build pixels hpix (2 ^ L) hS L 0 0 (by omega) (by omega)
    (fun _ => 0) k
  rw [← hroot_def] at hext
  have hdivlt : k / 2 ^ L < 2 ^ L := (Nat.div_lt_iff_lt_mul hS).mpr hk
  have hmodlt : k % 2 ^ L < 2 ^ L := Nat.mod_lt _ hS
  rw [if_pos ⟨Nat.zero_le _, by omega, Nat.zero_le _, by omega⟩] at hext
  exact hext

/-- Witness for C1: the 2×2 image `[1, 2, 3, 4]` with `#` comment lines
round-trips — decoding returns the built tree and rendering returns pixel 2
(value 3). -/
theorem C1_lossless_roundtrip_witness :
    (∀ i : Nat, ([1, 2, 3, 4].getD i 0 : Nat) < 256) ∧
    (1 : Nat) < 256 ∧
    ([0x23] : List Nat).length ≤ 254 ∧
    (qtree_decompress (compress
        (qtree_build (fun i => [1, 2, 3, 4].getD i 0) (2 ^ 1)) [0x23] [0x23])).map
        (fun res => (res.1, res.2.1)) =
      some (QtreeStatus.success,
        some (qtree_build (fun i => [1, 2, 3, 4].getD i 0) (2 ^ 1))) ∧
    decode_render (compress
        (qtree_build (fun i => [1, 2, 3, 4].getD i 0) (2 ^ 1)) [0x23] [0x23]) 2 =
      some 3 := by
  have hpix : ∀ i : Nat, ([1, 2, 3, 4].getD i 0 : Nat) < 256 := by
    intro i
    rcases i with _ | _ | _ | _ | i <;> simp [List.getD]
  have h := C1_lossless_roundtrip 1 (fun i => [1, 2, 3, 4].getD i 0) hpix (by norm_num)
    [0x23] [0x23] (by norm_num) (by decide) (by norm_num) (by decide)
  exact ⟨hpix, by norm_num, by norm_num, h.1, h.2 2 (by norm_num)⟩

end QtreeCompress
